import Mathlib

/-!
Verification development for the Schwab reports processing pipeline
(`schwab_reports.py`).  The pandas data frames are shallowly embedded as
lists of association-list rows (`Row`), cells as a sum type `Cell`
covering the Python values that actually flow through the pipeline:
strings, floats (idealized as exact rationals `ℚ`), `NaN`, signed
infinities, and `datetime.date` values (encoded as `y*10000 + m*100 + d`,
an encoding on which calendar order coincides with numeric order).

IEEE-754 doubles are idealized as exact rationals: every decimal literal
appearing in the data parses exactly, and the arithmetic performed by the
pipeline (products, quotients) is exact.  `float` parsing and `str()`
printing of floats are modelled accordingly (shortest-round-trip printing
becomes exact decimal printing).
-/

namespace Schwab

/-- A pandas cell value.  `nan` is a missing value (`NaN`), `inf` a signed
infinity (`neg = true` for `-inf`), `date` a `datetime.date` encoded as
`y*10000 + m*100 + d`. -/
inductive Cell where
  | str (s : String)
  | num (q : ℚ)
  | nan
  | inf (neg : Bool)
  | date (d : Nat)
deriving DecidableEq, Repr

/-- The failure modes of the pipeline.  `malformedAmount` models the
`ValueError` raised by `astype(float)`, `invalidDate` the error raised by
`pd.to_datetime(..., format=...)`, `orphanLotRow` the `UnboundLocalError`
raised in `normalize_eac_df` when a blank-date lot row is reached before
any `Sale` header has bound the loop-local sale context, `typeError`
a Python `TypeError` from an unsupported operand, and `keyError` the
pandas `KeyError` raised by `df[[...]]` when a requested column is not
in the frame. -/
inductive Err where
  | malformedAmount
  | invalidDate
  | orphanLotRow
  | typeError
  | keyError
deriving DecidableEq, Repr

/-- A data-frame row: named cells in column order. -/
abbrev Row := List (String × Cell)

/-- Look a column up in a row (first binding wins, like a pandas index). -/
def rowGet (r : Row) (k : String) : Option Cell :=
  match r with
  | [] => none
  | (k', v) :: t => if k' = k then some v else rowGet t k

/-- `row[k]`: a cell of a column the row does not bind reads as `NaN`
(a pandas column created by an enlarging `.at` assignment holds `NaN`
in every row the assignment did not touch). -/
def rowGetD (r : Row) (k : String) : Cell := (rowGet r k).getD .nan

/-- `df.at[i, k] = v`: update the column in place, or append it (pandas
appends a fresh column at the end of the frame). -/
def rowSet (r : Row) (k : String) (v : Cell) : Row :=
  match r with
  | [] => [(k, v)]
  | (k', v') :: t => if k' = k then (k', v) :: t else (k', v') :: rowSet t k v

/-- `k in row`. -/
def rowHas (r : Row) (k : String) : Bool := (rowGet r k).isSome

/-! ## Python float parsing (`float(s)`) -/

/-- The decimal digit character for `d % 10`. -/
def digitChar (d : Nat) : Char := Char.ofNat (48 + d % 10)

/-- Numeric value of a digit character. -/
def digVal (c : Char) : Nat := c.toNat - 48

/-- Value of a big-endian digit string. -/
def digitsVal (l : List Char) : Nat := l.foldl (fun a c => a * 10 + digVal c) 0

/-- Split a character list into its longest digit prefix and the rest. -/
def spanDigits : List Char → List Char × List Char
  | [] => ([], [])
  | c :: r => if c.isDigit then let p := spanDigits r; (c :: p.1, p.2) else ([], c :: r)

/-- Lower-casing as needed for the case-insensitive `nan` / `inf` /
`infinity` recognition of Python's `float`: exactly the letters of those
words are folded, which accepts and rejects the same strings as full
lower-casing does for those three comparisons. -/
def lowerChar (c : Char) : Char :=
  if c = 'N' then 'n' else if c = 'A' then 'a' else if c = 'I' then 'i'
  else if c = 'F' then 'f' else if c = 'T' then 't' else if c = 'Y' then 'y' else c

/-- Strip surrounding whitespace (pandas `.str.strip()` / `float`'s own
whitespace tolerance). -/
def trimWs (l : List Char) : List Char :=
  ((l.dropWhile Char.isWhitespace).reverse.dropWhile Char.isWhitespace).reverse

/-- The exponent digits after `e`/`E` (with optional sign). -/
def parseExpTail (q : ℚ) (r : List Char) : Option ℚ :=
  let p : Bool × List Char :=
    match r with
    | [] => (false, [])
    | c :: t => if c = '+' then (false, t) else if c = '-' then (true, t) else (false, c :: t)
  if p.2.isEmpty || !(p.2.all Char.isDigit) then none
  else some (if p.1 then q / 10 ^ digitsVal p.2 else q * 10 ^ digitsVal p.2)

/-- Optional exponent part of a float literal. -/
def parseExpPart (q : ℚ) : List Char → Option ℚ
  | [] => some q
  | c :: r => if c = 'e' ∨ c = 'E' then parseExpTail q r else none

/-- Unsigned mantissa (`digits`, `digits.digits`, `.digits`, `digits.`)
with optional exponent.  Underscore digit separators (accepted by Python
3.6+) never occur in this pipeline's data and are not modelled. -/
def parseMantissa (l : List Char) : Option ℚ :=
  let ip := spanDigits l
  match ip.2 with
  | c :: r2 =>
    if c = '.' then
      let fp := spanDigits r2
      if ip.1.isEmpty && fp.1.isEmpty then none
      else parseExpPart ((digitsVal ip.1 : ℚ) + (digitsVal fp.1 : ℚ) / 10 ^ fp.1.length) fp.2
    else if ip.1.isEmpty then none else parseExpPart (digitsVal ip.1 : ℚ) ip.2
  | [] => if ip.1.isEmpty then none else parseExpPart (digitsVal ip.1 : ℚ) []

/-- Negation of a parsed float value (`float("-nan")` is `nan`). -/
def negCell : Cell → Cell
  | .num q => .num (-q)
  | .inf b => .inf !b
  | c => c

/-- The body of a float literal after the optional sign. -/
def parseCore (r : List Char) : Option Cell :=
  if r.map lowerChar = "nan".data then some .nan
  else if r.map lowerChar = "inf".data ∨ r.map lowerChar = "infinity".data then some (.inf false)
  else (parseMantissa r).map Cell.num

/-- Optional sign then body. -/
def parseSigned (l : List Char) : Option Cell :=
  match l with
  | [] => parseCore []
  | c :: r => if c = '-' then (parseCore r).map negCell else if c = '+' then parseCore r else parseCore (c :: r)

/-- Python `float(s)`: `none` models the `ValueError` on unparseable
input. -/
def parseFloat (s : String) : Option Cell := parseSigned (trimWs s.data)

/-! ## Python `str()` of a float (for `astype(str)`) -/

/-- A decimal exponent `k` with `d ∣ 10^k`, searched in `0..d` (a
denominator of a binary-float value is a power of two, so such a `k`
always exists for the values this pipeline produces). -/
def decExp (d : Nat) : Option Nat := (List.range (d + 1)).find? (fun k => 10 ^ k % d == 0)

/-- Little-endian base-10 digits of `n`, computed with structural fuel so
that the kernel can evaluate it (it agrees with `Nat.digits 10`, proved
below). -/
def natDigitsAux : Nat → Nat → List Nat
  | 0, _ => []
  | _ + 1, 0 => []
  | f + 1, n + 1 => ((n + 1) % 10) :: natDigitsAux f ((n + 1) / 10)

/-- Little-endian base-10 digits of `n`. -/
def natDigits (n : Nat) : List Nat := natDigitsAux n n

/-- Big-endian digit characters of `n` (empty for `0`). -/
def natChars (n : Nat) : List Char := ((natDigits n).reverse).map digitChar

/-- Digit characters of `n`, `"0"` for zero. -/
def intChars (n : Nat) : List Char := if n = 0 then ['0'] else natChars n

/-- Digit characters of `n` left-padded with zeros to width `k`. -/
def fracChars (n k : Nat) : List Char := List.replicate (k - (natChars n).length) '0' ++ natChars n

/-- Python `str()` of a finite float, idealized to exact decimal
printing: `500 ↦ "500.0"`, `1234.56 ↦ "1234.56"` (Python prints the
shortest string that round-trips; both print decimal digits that parse
back to the same value, which is all the pipeline observes, since these
strings are immediately re-parsed).  The fallback branch is unreachable
for float-representable values. -/
def decRepr (q : ℚ) : String :=
  match decExp q.den with
  | some k =>
    let K := max k 1
    let m := q.num.natAbs * (10 ^ K / q.den)
    String.mk ((if q.num < 0 then ['-'] else []) ++ intChars (m / 10 ^ K) ++ '.' :: fracChars (m % 10 ^ K) K)
  | none => toString q.num ++ "/" ++ toString q.den

/-- `astype(str)` on one cell: `NaN` prints as `"nan"`, infinities as
`"inf"` / `"-inf"`, a `datetime.date` as ISO `"YYYY-MM-DD"`. -/
def cellToStr : Cell → String
  | .str s => s
  | .num q => decRepr q
  | .nan => "nan"
  | .inf b => if b then "-inf" else "inf"
  | .date d =>
    String.mk (fracChars (d / 10000) 4 ++ '-' :: fracChars (d / 100 % 100) 2 ++ '-' :: fracChars (d % 100) 2)

/-! ## `convert_amount_to_numeric` -/

/-- `.str.replace(c, "")` with a literal single-character pattern. -/
def rmChar (c : Char) (l : List Char) : List Char := l.filter (fun x => x != c)

/-- `.str.replace("(", "-").str.replace(")", "")`. -/
def parenStep (l : List Char) : List Char :=
  l.filterMap (fun x => if x = '(' then some '-' else if x = ')' then none else some x)

/-- `.str.strip()`. -/
def stripStr (s : String) : String := String.mk (trimWs s.data)

/-- `.str.contains(pat)` for a single-character literal pattern. -/
def containsC (s : String) (c : Char) : Bool := s.data.contains c

/-- Effectful map over a list in the `Option` monad, failing on the first
failure. -/
def optMap (f : α → Option β) : List α → Option (List β)
  | [] => some []
  | a :: l =>
    match f a with
    | none => none
    | some b =>
      match optMap f l with
      | none => none
      | some l' => some (b :: l')

/-- `convert_amount_to_numeric` on one column: stringify every cell, then
conditionally (if any cell contains the character) remove `$`, remove
`,`, rewrite `(` to `-` and drop `)`, then strip whitespace and parse as
float; any unparseable cell aborts the column with `MalformedAmount`. -/
def convertAmountToNumeric (col : List Cell) : Except Err (List Cell) :=
  let s0 := col.map cellToStr
  let s1 := if s0.any (fun s => containsC s '$') then s0.map (fun s => String.mk (rmChar '$' s.data)) else s0
  let s2 := if s1.any (fun s => containsC s ',') then s1.map (fun s => String.mk (rmChar ',' s.data)) else s1
  let s3 := if s2.any (fun s => containsC s '(') then s2.map (fun s => String.mk (parenStep s.data)) else s2
  let s4 := s3.map stripStr
  match optMap parseFloat s4 with
  | some vals => .ok vals
  | none => .error .malformedAmount

/-- The per-cell normalization that the column-level
`convertAmountToNumeric` performs on each cell (the conditional
replacement steps are pointwise identities on cells they do not apply
to). -/
def cellConvert (c : Cell) : Option Cell :=
  parseFloat (stripStr (String.mk (parenStep (rmChar ',' (rmChar '$' (cellToStr c).data)))))

/-! ## Dates (`pd.to_datetime(..., format="%m/%d/%Y")`) -/

/-- Gregorian leap year. -/
def isLeap (y : Nat) : Bool := y % 4 == 0 && (y % 100 != 0 || y % 400 == 0)

/-- Days in a month, as `strptime` validates them. -/
def daysInMonth (y m : Nat) : Nat :=
  if m = 2 then (if isLeap y then 29 else 28)
  else if m = 4 ∨ m = 6 ∨ m = 9 ∨ m = 11 then 30 else 31

/-- A `datetime.date` encoded as `y*10000 + m*100 + d`; on valid dates
numeric order is calendar order. -/
def mkDate (y m d : Nat) : Nat := y * 10000 + m * 100 + d

/-- Split a character list at every occurrence of `sep`. -/
def splitOnChar (sep : Char) (l : List Char) : List (List Char) :=
  match l with
  | [] => [[]]
  | c :: r =>
    let ps := splitOnChar sep r
    if c = sep then [] :: ps
    else match ps with
      | p :: t => (c :: p) :: t
      | [] => [[c]]

/-- A numeric `strptime` field of at most `maxLen` digits. -/
def parseNatField (l : List Char) (maxLen : Nat) : Option Nat :=
  if l.isEmpty || !(l.all Char.isDigit) || decide (maxLen < l.length) then none
  else some (digitsVal l)

/-- `strptime(s, "%m/%d/%Y")`: one-or-two-digit month and day, up to
four-digit year, calendar-validated. -/
def parseDateMDY (s : String) : Option Nat :=
  match splitOnChar '/' s.data with
  | [ms, ds, ys] => do
    let m ← parseNatField ms 2
    let d ← parseNatField ds 2
    let y ← parseNatField ys 4
    if 1 ≤ m ∧ m ≤ 12 ∧ 1 ≤ d ∧ d ≤ daysInMonth y m then some (mkDate y m d) else none
  | _ => none

/-- `pd.to_datetime(x, format="%m/%d/%Y").date()` for a scalar that is
then used in a date comparison: a string is parsed (failure raises, i.e.
`InvalidDate`), an existing `datetime.date` passes through.  A missing
value would give `NaT` in Python; no reachable frame feeds a missing or
numeric date into this scalar path, and it is modelled as `InvalidDate`. -/
def cellDateMDY : Cell → Except Err Nat
  | .str s =>
    match parseDateMDY s with
    | some d => .ok d
    | none => .error .invalidDate
  | .date d => .ok d
  | _ => .error .invalidDate

/-- `pd.to_datetime(column, format="%m/%d/%Y")` on one cell of a column:
strings are parsed strictly, dates pass through, missing values become
`NaT` (kept as `nan`). -/
def dateifyCell : Cell → Except Err Cell
  | .str s =>
    match parseDateMDY s with
    | some d => .ok (.date d)
    | none => .error .invalidDate
  | .date d => .ok (.date d)
  | .nan => .ok .nan
  | _ => .error .invalidDate

/-! ## Numeric cell arithmetic (numpy float64 semantics, exact) -/

/-- Product of two float cells (`NaN` propagates; the operands of every
product in the pipeline are outputs of amount conversion or of the
division below, so the string/date cases are unreachable and map to
`NaN`). -/
def pyMul : Cell → Cell → Cell
  | .num a, .num b => .num (a * b)
  | .num a, .inf b => if a = 0 then .nan else .inf (b != decide (a < 0))
  | .inf b, .num a => if a = 0 then .nan else .inf (b != decide (a < 0))
  | .inf b1, .inf b2 => .inf (b1 != b2)
  | _, _ => .nan

/-- Quotient of two float cells, numpy-style: `x/0` is a signed infinity
for `x ≠ 0` and `NaN` for `0/0` (no exception). -/
def pyDiv : Cell → Cell → Cell
  | .num a, .num b =>
    if b = 0 then (if a = 0 then .nan else .inf (decide (a < 0)))
    else .num (a / b)
  | .num _, .inf _ => .num 0
  | .inf b, .num a => .inf (b != decide (a < 0))
  | .inf _, .inf _ => .nan
  | _, _ => .nan

/-- A cell multiplied by a Python `int` (the configured split ratio):
floats multiply, `NaN` propagates, a string would be Python string
repetition, and a date would raise `TypeError` (modelled as `NaN`; no
reachable frame has a date in a quantity or cost-basis cell). -/
def pyMulInt (c : Cell) (r : ℤ) : Cell :=
  match c with
  | .num q => .num (q * r)
  | .nan => .nan
  | .inf b => if r = 0 then .nan else .inf (b != decide (r < 0))
  | .str s => .str (String.mk (List.flatten (List.replicate r.toNat s.data)))
  | .date _ => .nan

/-- Pandas scalar equality of a cell against a string (`NaN == s` and
`date == s` are `False`). -/
def cellEqStr (c : Cell) (s : String) : Bool :=
  match c with
  | .str t => t == s
  | _ => false

/-- `pd.isna(row["Date"]) or row["Date"] == ""`. -/
def isBlankDate (c : Cell) : Bool :=
  match c with
  | .nan => true
  | .str s => s == ""
  | _ => false

/-- Effectful map in the `Except` monad, failing on the first failing
element (matching row-by-row iteration that raises). -/
def exMap (f : α → Except Err β) : List α → Except Err (List β)
  | [] => .ok []
  | a :: l =>
    match f a with
    | .error e => .error e
    | .ok b =>
      match exMap f l with
      | .error e => .error e
      | .ok l' => .ok (b :: l')

/-! ## `fixup_stock_splits` -/

/-- The configured stock split (`get_stock_split_info`): effective date
and integer ratio. -/
structure SplitCfg where
  splitDate : Nat
  ratio : ℤ
deriving DecidableEq, Repr

/-- One row of `fixup_stock_splits`: parse the row's date; if it is
strictly before the split date and the row has a `Quantity` column,
multiply the quantity by the ratio.  (The source also guards
`row["Quantity"] is not None`; CSV-loaded frames never hold Python
`None`, so the guard is always true here.) -/
def fixupRow (splitDate : Nat) (ratio : ℤ) (dateCol : String) (r : Row) : Except Err Row :=
  match cellDateMDY (rowGetD r dateCol) with
  | .error e => .error e
  | .ok d =>
    if d < splitDate then
      if rowHas r "Quantity" then .ok (rowSet r "Quantity" (pyMulInt (rowGetD r "Quantity") ratio))
      else .ok r
    else .ok r

/-- `fixup_stock_splits(df, date_column)`. -/
def fixupStockSplits (splitDate : Nat) (ratio : ℤ) (dateCol : String) (rows : List Row) : Except Err (List Row) :=
  exMap (fixupRow splitDate ratio dateCol) rows

/-! ## `normalize_eac_df` -/

/-- The loop-local sale context of `normalize_eac_df`: the header row's
parsed date, symbol, and per-share sale price `Amount / Quantity`. -/
structure SaleCtx where
  rdate : Nat
  rsym : Cell
  rfmv : Cell
deriving DecidableEq, Repr

/-- The five EAC columns converted to numeric before the lot pass. -/
def eacAmountCols : List String :=
  ["Amount", "Shares", "Quantity", "PurchaseFairMarketValue", "VestFairMarketValue"]

/-- `convert_amount_to_numeric(df, k)`: convert one named column of a
frame in place. -/
def convertDfColumn (k : String) (rows : List Row) : Except Err (List Row) :=
  match convertAmountToNumeric (rows.map (fun r => rowGetD r k)) with
  | .error e => .error e
  | .ok vals => .ok (List.zipWith (fun r v => rowSet r k v) rows vals)

/-- Convert several columns in sequence. -/
def convertDfColumns (ks : List String) (rows : List Row) : Except Err (List Row) :=
  match ks with
  | [] => .ok rows
  | k :: t =>
    match convertDfColumn k rows with
    | .error e => .error e
    | .ok rows' => convertDfColumns t rows'

/-- One iteration of the `normalize_eac_df` loop.  A `Sale` header row
re-binds the loop-local context; a blank-date row is re-labelled into a
`Lot Sale` row using that context.  A blank-date row reached with no
context bound raises in Python (`UnboundLocalError` on `row_date`) —
modelled as `OrphanLotRow`, the structurally-broken-input failure. -/
def reconStep (cfg : SplitCfg) (st : Option SaleCtx) (r : Row) : Except Err (Option SaleCtx × Row) :=
  if cellEqStr (rowGetD r "Action") "Sale" then
    match cellDateMDY (rowGetD r "Date") with
    | .error e => .error e
    | .ok d => .ok (some ⟨d, rowGetD r "Symbol", pyDiv (rowGetD r "Amount") (rowGetD r "Quantity")⟩, r)
  else if isBlankDate (rowGetD r "Date") then
    match st with
    | none => .error .orphanLotRow
    | some ctx =>
      let shares := rowGetD r "Shares"
      let isRS := cellEqStr (rowGetD r "Type") "RS"
      let fmv := if isRS then rowGetD r "VestFairMarketValue" else rowGetD r "PurchaseFairMarketValue"
      let cb := pyMul fmv shares
      let cb2 := if ctx.rdate < cfg.splitDate then pyMulInt cb cfg.ratio else cb
      let r1 := rowSet r "Action" (.str "Lot Sale")
      let r2 := rowSet r1 "Date" (.date ctx.rdate)
      let r3 := rowSet r2 "Symbol" ctx.rsym
      let r4 := rowSet r3 "Amount" (pyMul ctx.rfmv shares)
      let r5 := rowSet r4 "Quantity" shares
      let r6 := rowSet r5 "Cost Basis" cb2
      let r7 := rowSet r6 "PurchaseDate" (if isRS then rowGetD r "VestDate" else rowGetD r "PurchaseDate")
      .ok (some ctx, r7)
  else .ok (st, r)

/-- The full left-to-right lot-reconstruction pass of
`normalize_eac_df`. -/
def reconGo (cfg : SplitCfg) (st : Option SaleCtx) : List Row → Except Err (List Row)
  | [] => .ok []
  | r :: rest =>
    match reconStep cfg st r with
    | .error e => .error e
    | .ok (st', r') =>
      match reconGo cfg st' rest with
      | .error e => .error e
      | .ok out => .ok (r' :: out)

/-- `normalize_eac_df`: numeric conversion of the five amount columns,
then the lot-reconstruction pass. -/
def normalizeEacDf (cfg : SplitCfg) (rows : List Row) : Except Err (List Row) :=
  match convertDfColumns eacAmountCols rows with
  | .error e => .error e
  | .ok rows' => reconGo cfg none rows'

/-! ## Category tables -/

/-- A data frame: a header (column names, in order) and its rows.  An
empty pandas frame still carries its columns, which this header field
records. -/
structure Table where
  cols : List String
  rows : List Row
deriving DecidableEq, Repr

/-- Declared Dividend schema. -/
def dividendCols : List String := ["Date", "Action", "Symbol", "Amount"]

/-- Declared Interest schema. -/
def interestCols : List String := ["Date", "Action", "Amount"]

/-- Declared Tax-Deducted schema. -/
def taxCols : List String := ["Date", "Symbol", "Amount"]

/-- Declared Sale schema. -/
def saleCols : List String := ["Date", "Symbol", "Quantity", "Amount", "Cost Basis", "PurchaseDate"]

/-- `df[[c1, ..., cn]]`: select / reorder columns.  Pandas raises
`KeyError` if any requested column is not in the frame. -/
def selectCols (cs : List String) (t : Table) : Except Err Table :=
  if cs.all (fun c => t.cols.contains c) then
    .ok ⟨cs, t.rows.map (fun r => cs.map (fun c => (c, rowGetD r c)))⟩
  else .error .keyError

/-- `df[mask]`: keep the rows satisfying the predicate. -/
def filterRows (p : Row → Bool) (t : Table) : Table := ⟨t.cols, t.rows.filter p⟩

/-- `df[k] = pd.to_datetime(df[k], format="%m/%d/%Y")`. -/
def toDatetimeCol (k : String) (t : Table) : Except Err Table :=
  match exMap (fun r =>
      match dateifyCell (rowGetD r k) with
      | .error e => .error e
      | .ok c => .ok (rowSet r k c)) t.rows with
  | .error e => .error e
  | .ok rs => .ok ⟨t.cols, rs⟩

/-- Sort rank of a row's `Date` cell: real dates first in calendar
order, `NaT` last (pandas `sort_values` puts missing values last). -/
def dateFlag (r : Row) : Nat :=
  match rowGetD r "Date" with
  | .date _ => 0
  | _ => 1

/-- The date value used for ordering (0 for non-dates, which are
separated by `dateFlag`). -/
def dateVal (r : Row) : Nat :=
  match rowGetD r "Date" with
  | .date d => d
  | _ => 0

/-- The `sort_values(by="Date")` order, as a Boolean relation. -/
def dateLEb (a b : Row) : Bool :=
  decide (dateFlag a < dateFlag b) || (dateFlag a == dateFlag b && decide (dateVal a ≤ dateVal b))

/-- The `sort_values(by="Date")` order. -/
def dateLE (a b : Row) : Prop := dateLEb a b = true

instance : DecidableRel dateLE := fun a b => inferInstanceAs (Decidable (dateLEb a b = true))

/-- `df.sort_values(by="Date")` (pandas guarantees only the ordering;
the model uses a stable insertion sort). -/
def sortByDate (t : Table) : Table := ⟨t.cols, List.insertionSort dateLE t.rows⟩

/-- `populate_dividend_table`: the declared-columns selection runs on
the individual side (or on the empty declared frame) and, when the EAC
frame is present, on its `Dividend` rows before the emptiness check. -/
def populateDividendTable (ind eac : Option Table) : Except Err Table :=
  selectCols dividendCols (match ind with
    | some t => filterRows (fun r =>
        cellEqStr (rowGetD r "Action") "Reinvest Dividend" ||
        cellEqStr (rowGetD r "Action") "Qual Div Reinvest") t
    | none => ⟨dividendCols, []⟩) >>= fun base =>
  (match eac with
    | some t =>
      selectCols dividendCols
        (filterRows (fun r => cellEqStr (rowGetD r "Action") "Dividend") t) >>= fun e =>
      pure (if e.rows.isEmpty then base else ⟨base.cols, base.rows ++ e.rows⟩)
    | none => pure base) >>= fun merged =>
  toDatetimeCol "Date" merged >>= fun td =>
  pure (sortByDate td)

/-- `populate_interest_table`. -/
def populateInterestTable (ind : Option Table) : Except Err Table :=
  selectCols interestCols (match ind with
    | some t => filterRows (fun r => cellEqStr (rowGetD r "Action") "Credit Interest") t
    | none => ⟨interestCols, []⟩) >>= fun base =>
  toDatetimeCol "Date" base >>= fun td =>
  pure (sortByDate td)

/-- `populate_tax_deducted_table`. -/
def populateTaxDeductedTable (ind eac : Option Table) : Except Err Table :=
  (match ind with
    | some t =>
      selectCols taxCols
        (filterRows (fun r => cellEqStr (rowGetD r "Action") "NRA Tax Adj") t) >>= fun a =>
      pure (some a)
    | none => pure none) >>= fun t0 =>
  (match eac with
    | some t =>
      selectCols taxCols
        (filterRows (fun r => cellEqStr (rowGetD r "Action") "Tax Withholding") t) >>= fun e =>
      pure (if e.rows.isEmpty then t0
        else some (match t0 with
          | none => e
          | some a => ⟨a.cols, a.rows ++ e.rows⟩))
    | none => pure t0) >>= fun t1 =>
  if (t1.getD ⟨taxCols, []⟩).rows.isEmpty then pure (t1.getD ⟨taxCols, []⟩)
  else toDatetimeCol "Date" (t1.getD ⟨taxCols, []⟩) >>= fun td =>
    pure (sortByDate td)

/-- `populate_eac_sale_table`: select the EAC `Lot Sale` rows down to
the sale schema — including the `Cost Basis` column that only the lot
pass of `normalize_eac_df` creates, so the selection itself fails with
`KeyError` on a lot-free EAC frame — and append them (if any) to the
running sale table. -/
def populateEacSaleTable (eac : Option Table) (saleTable : Option Table) :
    Except Err (Option Table) :=
  match eac with
  | none => .ok saleTable
  | some t =>
    selectCols saleCols
      (filterRows (fun r => cellEqStr (rowGetD r "Action") "Lot Sale") t) >>= fun e =>
    if e.rows.isEmpty then pure saleTable
    else toDatetimeCol "Date" e >>= fun e' =>
      pure (some (match saleTable with
        | none => e'
        | some s => ⟨s.cols, s.rows ++ e'.rows⟩))

/-- `populate_individual_sale_table`: select the realized-gains columns
(`KeyError` when one is missing) and rename them into the sale schema. -/
def populateIndividualSaleTable (t : Table) : Except Err Table :=
  if ["Closed Date", "Symbol", "Quantity", "Proceeds", "Cost Basis (CB)", "Opened Date"].all
      (fun c => t.cols.contains c) then
    .ok ⟨saleCols, t.rows.map (fun r =>
      [("Date", rowGetD r "Closed Date"), ("Symbol", rowGetD r "Symbol"),
       ("Quantity", rowGetD r "Quantity"), ("Amount", rowGetD r "Proceeds"),
       ("Cost Basis", rowGetD r "Cost Basis (CB)"), ("PurchaseDate", rowGetD r "Opened Date")])⟩
  else .error .keyError

/-- `populate_sale_table` (`pd.concat` drops a `None` member silently,
so an absent EAC side simply contributes nothing). -/
def populateSaleTable (eac indSales : Option Table) : Except Err Table :=
  populateEacSaleTable eac none >>= fun s0 =>
  (match indSales with
    | some t =>
      populateIndividualSaleTable t >>= fun i =>
      pure (if i.rows.isEmpty then s0
        else some (match s0 with
          | none => i
          | some s => ⟨s.cols, s.rows ++ i.rows⟩))
    | none => pure s0) >>= fun s1 =>
  if (s1.getD ⟨saleCols, []⟩).rows.isEmpty then pure (s1.getD ⟨saleCols, []⟩)
  else toDatetimeCol "Date" (s1.getD ⟨saleCols, []⟩) >>= fun td =>
    pure (sortByDate td)

/-- Convert one named column of a table. -/
def convertTableColumn (k : String) (t : Table) : Except Err Table :=
  match convertDfColumn k t.rows with
  | .error e => .error e
  | .ok rs => .ok ⟨t.cols, rs⟩

/-- One table's share of `cleanup_all_tables`: non-empty tables get the
named column converted to numeric. -/
def cleanupTable (k : String) (t : Table) : Except Err Table :=
  if t.rows.isEmpty then .ok t else convertTableColumn k t

/-- `cleanup_all_tables`: `Amount` everywhere, and additionally
`Cost Basis` on the sale table. -/
def cleanupAllTables (d i tx s : Table) : Except Err (Table × Table × Table × Table) := do
  let d' ← cleanupTable "Amount" d
  let i' ← cleanupTable "Amount" i
  let tx' ← cleanupTable "Amount" tx
  let s' ← cleanupTable "Amount" s
  let s'' ← cleanupTable "Cost Basis" s'
  pure (d', i', tx', s'')

/-! ## The pipeline (`init_data` + `process_all`) -/

/-- The three source frames, as the external loader provides them; an
absent file is `none`. -/
structure Sources where
  individual : Option Table
  individualSales : Option Table
  eac : Option Table

/-- `init_data` on the individual-account frame: drop `Reinvest Shares`
rows, then apply the stock-split fixup on `Date`. -/
def initIndividual (cfg : SplitCfg) (t : Table) : Except Err Table :=
  let f := filterRows (fun r => !(cellEqStr (rowGetD r "Action") "Reinvest Shares")) t
  match fixupStockSplits cfg.splitDate cfg.ratio "Date" f.rows with
  | .error e => .error e
  | .ok rs => .ok ⟨f.cols, rs⟩

/-- `init_data` on the realized-gains frame: stock-split fixup on
`Closed Date` (the skipped header line is the loader's concern). -/
def initIndividualSales (cfg : SplitCfg) (t : Table) : Except Err Table :=
  match fixupStockSplits cfg.splitDate cfg.ratio "Closed Date" t.rows with
  | .error e => .error e
  | .ok rs => .ok ⟨t.cols, rs⟩

/-- `init_data` on the EAC frame: `normalize_eac_df`, then the
stock-split fixup on `Date`.  The lot pass assigns
`.at[index, "Cost Basis"]` on every blank-date lot row, and the first
such enlarging assignment appends a fresh `Cost Basis` column to the
frame; so on success the header gains `Cost Basis` exactly when some
row of the input has a blank `Date` (a run with none leaves the raw
header, and the later sale-schema selection then fails). -/
def initEac (cfg : SplitCfg) (t : Table) : Except Err Table :=
  match normalizeEacDf cfg t.rows with
  | .error e => .error e
  | .ok rs =>
    match fixupStockSplits cfg.splitDate cfg.ratio "Date" rs with
    | .error e => .error e
    | .ok rs' =>
      .ok ⟨if t.rows.any (fun r =>
              !(cellEqStr (rowGetD r "Action") "Sale") && isBlankDate (rowGetD r "Date")) &&
            !(t.cols.contains "Cost Basis")
          then t.cols ++ ["Cost Basis"] else t.cols, rs'⟩

/-- Initialize an optional source. -/
def optInit (f : Table → Except Err Table) : Option Table → Except Err (Option Table)
  | none => .ok none
  | some t =>
    match f t with
    | .error e => .error e
    | .ok t' => .ok (some t')

/-- The full pipeline of `process_all` up to the external CSV writer:
load-time preprocessing, the four category tables, and the amount
cleanup. -/
def runPipeline (cfg : SplitCfg) (s : Sources) : Except Err (Table × Table × Table × Table) := do
  let ind ← optInit (initIndividual cfg) s.individual
  let sales ← optInit (initIndividualSales cfg) s.individualSales
  let eac ← optInit (initEac cfg) s.eac
  let d ← populateDividendTable ind eac
  let i ← populateInterestTable ind
  let tx ← populateTaxDeductedTable ind eac
  let sl ← populateSaleTable eac sales
  cleanupAllTables d i tx sl

/-! ## Basic row lemmas -/

theorem rowGet_set_self (r : Row) (k : String) (v : Cell) : rowGet (rowSet r k v) k = some v := by
  induction r with
  | nil => simp [rowSet, rowGet]
  | cons p t ih =>
    obtain ⟨k', v'⟩ := p
    by_cases h : k' = k
    · simp [rowSet, rowGet, h]
    · simp [rowSet, rowGet, h, ih]

theorem rowGet_set_ne (r : Row) (k k' : String) (v : Cell) (h : k' ≠ k) :
    rowGet (rowSet r k v) k' = rowGet r k' := by
  induction r with
  | nil => simp [rowSet, rowGet, Ne.symm h]
  | cons p t ih =>
    obtain ⟨k0, v0⟩ := p
    by_cases h0 : k0 = k
    · subst h0
      have hk' : k0 ≠ k' := fun hc => h hc.symm
      simp [rowSet, rowGet, hk']
    · simp only [rowSet, if_neg h0, rowGet]
      by_cases h1 : k0 = k'
      · simp [h1]
      · simp [h1, ih]

theorem rowGetD_set_self (r : Row) (k : String) (v : Cell) : rowGetD (rowSet r k v) k = v := by
  simp [rowGetD, rowGet_set_self]

theorem rowGetD_set_ne (r : Row) (k k' : String) (v : Cell) (h : k' ≠ k) :
    rowGetD (rowSet r k v) k' = rowGetD r k' := by
  simp [rowGetD, rowGet_set_ne _ _ _ _ h]

theorem rowSet_keys_of_mem (r : Row) (k : String) (v : Cell) (h : k ∈ r.map Prod.fst) :
    (rowSet r k v).map Prod.fst = r.map Prod.fst := by
  induction r with
  | nil => simp at h
  | cons p t ih =>
    obtain ⟨k0, v0⟩ := p
    by_cases h0 : k0 = k
    · simp [rowSet, h0]
    · simp only [List.map_cons, List.mem_cons] at h
      rcases h with h | h
      · exact absurd h.symm h0
      · simp [rowSet, h0, ih h]

/-! ## `exMap` lemmas -/

theorem exMap_length (f : α → Except Err β) (l : List α) (l' : List β)
    (h : exMap f l = .ok l') : l'.length = l.length := by
  induction l generalizing l' with
  | nil =>
    simp only [exMap] at h
    cases h
    rfl
  | cons a t ih =>
    simp only [exMap] at h
    cases hf : f a with
    | error e => rw [hf] at h; cases h
    | ok b =>
      rw [hf] at h
      cases ht : exMap f t with
      | error e => rw [ht] at h; cases h
      | ok tb =>
        rw [ht] at h
        cases h
        simp [ih tb ht]

theorem exMap_mem (f : α → Except Err β) (l : List α) (l' : List β)
    (h : exMap f l = .ok l') : ∀ b ∈ l', ∃ a ∈ l, f a = .ok b := by
  induction l generalizing l' with
  | nil =>
    simp only [exMap] at h
    cases h
    simp
  | cons a t ih =>
    simp only [exMap] at h
    cases hf : f a with
    | error e => rw [hf] at h; cases h
    | ok b0 =>
      rw [hf] at h
      cases ht : exMap f t with
      | error e => rw [ht] at h; cases h
      | ok tb =>
        rw [ht] at h
        cases h
        intro b hb
        rcases List.mem_cons.mp hb with hb | hb
        · exact ⟨a, by simp, by simpa [hb] using hf⟩
        · obtain ⟨a', ha', hfa'⟩ := ih tb ht b hb
          exact ⟨a', by simp [ha'], hfa'⟩

/-! ## Claim C4: stock-split boundary -/

/-- The three boundary rows of the split-adjustment example. -/
def splitRow (s : String) : Row := [("Date", .str s), ("Quantity", .num 10)]

/-- C4: a row's `Quantity` is multiplied by the split ratio exactly when
its parsed date is strictly before the split's effective date; in
particular, for a split at `2024-06-07` with ratio `10`, a row dated
`06/06/2024` with quantity `10` becomes `100`, while rows dated
`06/07/2024` (the boundary itself) and `06/08/2024` are unchanged. -/
theorem stock_split_boundary :
    (∀ (splitD : Nat) (ratio : ℤ) (dc : String) (r : Row) (s : String) (d : Nat) (q : ℚ),
      rowGetD r dc = .str s → parseDateMDY s = some d → rowGet r "Quantity" = some (.num q) →
      fixupRow splitD ratio dc r = .ok (if d < splitD then rowSet r "Quantity" (.num (q * ratio)) else r)) ∧
    fixupStockSplits (mkDate 2024 6 7) 10 "Date" [splitRow "06/06/2024"] =
      .ok [[("Date", .str "06/06/2024"), ("Quantity", .num 100)]] ∧
    fixupStockSplits (mkDate 2024 6 7) 10 "Date" [splitRow "06/07/2024"] = .ok [splitRow "06/07/2024"] ∧
    fixupStockSplits (mkDate 2024 6 7) 10 "Date" [splitRow "06/08/2024"] = .ok [splitRow "06/08/2024"] := by
  refine ⟨?_, by with_unfolding_all rfl, by with_unfolding_all rfl, by with_unfolding_all rfl⟩
  intro splitD ratio dc r s d q h1 h2 h3
  have hhas : rowHas r "Quantity" = true := by unfold rowHas; rw [h3]; rfl
  have hgd : rowGetD r "Quantity" = .num q := by unfold rowGetD; rw [h3]; rfl
  have hc : cellDateMDY (Cell.str s) = .ok d := by simp [cellDateMDY, h2]
  unfold fixupRow
  rw [h1, hc]
  by_cases hlt : d < splitD
  · simp [hlt, hhas, hgd, pyMulInt]
  · simp [hlt]

/-- Witness for C4 at the `06/06/2024` row. -/
theorem stock_split_boundary_witness :
    rowGetD (splitRow "06/06/2024") "Date" = .str "06/06/2024" ∧
    parseDateMDY "06/06/2024" = some (mkDate 2024 6 6) ∧
    rowGet (splitRow "06/06/2024") "Quantity" = some (.num 10) ∧
    fixupRow (mkDate 2024 6 7) 10 "Date" (splitRow "06/06/2024") =
      .ok (if mkDate 2024 6 6 < mkDate 2024 6 7 then
            rowSet (splitRow "06/06/2024") "Quantity" (.num (10 * 10))
          else splitRow "06/06/2024") :=
  ⟨by with_unfolding_all rfl, by with_unfolding_all rfl, by with_unfolding_all rfl,
    stock_split_boundary.1 (mkDate 2024 6 7) 10 "Date" (splitRow "06/06/2024") "06/06/2024"
      (mkDate 2024 6 6) 10 (by with_unfolding_all rfl) (by with_unfolding_all rfl)
      (by with_unfolding_all rfl)⟩

/-! ## Claim C3: orphan lot rows -/

/-- C3: a blank-date lot row reached while no sale is open (in
particular, as the very first row of the pass) makes the reconstruction
pass fail with `OrphanLotRow` — it is neither dropped nor emitted.  (In
the Python source the failure is the `UnboundLocalError` on the unbound
`row_date` loop variable; see `reconStep`.) -/
theorem orphan_lot_row_fails :
    ∀ (cfg : SplitCfg) (r : Row) (rest : List Row),
      cellEqStr (rowGetD r "Action") "Sale" = false →
      isBlankDate (rowGetD r "Date") = true →
      reconGo cfg none (r :: rest) = .error .orphanLotRow := by
  intro cfg r rest h1 h2
  simp [reconGo, reconStep, h1, h2]

/-- Witness for C3: a lone lot-detail row. -/
theorem orphan_lot_row_fails_witness :
    cellEqStr (rowGetD [("Date", Cell.nan), ("Shares", Cell.num 50)] "Action") "Sale" = false ∧
    isBlankDate (rowGetD [("Date", Cell.nan), ("Shares", Cell.num 50)] "Date") = true ∧
    reconGo ⟨mkDate 2020 1 1, 10⟩ none [[("Date", Cell.nan), ("Shares", Cell.num 50)]] =
      .error .orphanLotRow :=
  ⟨by with_unfolding_all rfl, by with_unfolding_all rfl,
    orphan_lot_row_fails ⟨mkDate 2020 1 1, 10⟩ [("Date", Cell.nan), ("Shares", Cell.num 50)] []
      (by with_unfolding_all rfl) (by with_unfolding_all rfl)⟩

/-! ## Claims C1 and C2: the lot-sale reconstruction on concrete inputs -/

/-- Split configuration whose effective date precedes every date in the
C1/C2 scenarios (so no split scaling interferes). -/
def c1Cfg : SplitCfg := ⟨mkDate 2020 1 1, 10⟩

/-- The C1 `Sale` header row as loaded from CSV (`Quantity` is a numeric
column, `Amount` a currency string column). -/
def c1Header : Row :=
  [("Date", .str "06/15/2024"), ("Action", .str "Sale"), ("Symbol", .str "AAPL"),
   ("Quantity", .num 100), ("Amount", .str "$15000.00"), ("Shares", .nan), ("Type", .nan),
   ("VestFairMarketValue", .nan), ("PurchaseFairMarketValue", .nan), ("VestDate", .nan), ("PurchaseDate", .nan)]

/-- The C1 lot-detail row: `Type=RS`, `VestFairMarketValue=$100.00`,
`Shares=50`, `VestDate=01/01/2024`. -/
def c1Lot : Row :=
  [("Date", .nan), ("Action", .nan), ("Symbol", .nan), ("Quantity", .nan), ("Amount", .nan),
   ("Shares", .num 50), ("Type", .str "RS"), ("VestFairMarketValue", .str "$100.00"),
   ("PurchaseFairMarketValue", .nan), ("VestDate", .str "01/01/2024"), ("PurchaseDate", .nan)]

/-- A second header-only `Sale` row (for the C2 scenario). -/
def c2Header : Row :=
  [("Date", .str "07/20/2024"), ("Action", .str "Sale"), ("Symbol", .str "AAPL"),
   ("Quantity", .num 20), ("Amount", .str "$3000.00"), ("Shares", .nan), ("Type", .nan),
   ("VestFairMarketValue", .nan), ("PurchaseFairMarketValue", .nan), ("VestDate", .nan), ("PurchaseDate", .nan)]

/-- The named cell of row `i` of a successful frame result (`nan` on
failure or out of range; used only to state concrete facts). -/
def lotCell (e : Except Err (List Row)) (i : Nat) (k : String) : Cell :=
  match e with
  | .ok rows => rowGetD (rows.getD i []) k
  | .error _ => .nan

/-- C1 counterexample: on the claimed input the reconstructed lot-sale
row carries `Cost Basis = 100.00 * 50 = 5000.00` (per-share fair market
value times the lot's `Shares`), not the claimed
`100.00 * 100 = 10000.00`. -/
theorem lot_sale_cost_basis_counterexample :
    lotCell (normalizeEacDf c1Cfg [c1Header, c1Lot]) 1 "Cost Basis" = .num 5000 ∧
    (Cell.num 5000 : Cell) ≠ .num 10000 := by
  refine ⟨by with_unfolding_all rfl, ?_⟩
  intro h
  injection h with h'
  norm_num at h'

/-- C1 amended: the pass emits no averaged sale-level record; it
re-labels the lot row itself into a `Lot Sale` row whose
`Cost Basis` is the lot's per-share fair market value times the lot's
own `Shares` (`100.00 * 50 = 5000.00`), with
`PurchaseDate = "01/01/2024"` (the lot's `VestDate`),
`Amount = (15000/100) * 50 = 7500` and `Quantity = 50`. -/
theorem lot_sale_cost_basis_per_lot :
    (normalizeEacDf c1Cfg [c1Header, c1Lot]).isOk = true ∧
    lotCell (normalizeEacDf c1Cfg [c1Header, c1Lot]) 1 "Action" = .str "Lot Sale" ∧
    lotCell (normalizeEacDf c1Cfg [c1Header, c1Lot]) 1 "Cost Basis" = .num 5000 ∧
    lotCell (normalizeEacDf c1Cfg [c1Header, c1Lot]) 1 "PurchaseDate" = .str "01/01/2024" ∧
    lotCell (normalizeEacDf c1Cfg [c1Header, c1Lot]) 1 "Amount" = .num 7500 ∧
    lotCell (normalizeEacDf c1Cfg [c1Header, c1Lot]) 1 "Quantity" = .num 50 := by
  refine ⟨?_, ?_, ?_, ?_, ?_, ?_⟩ <;> with_unfolding_all rfl

/-- The raw EAC source header (as `pd.read_csv` reports it). -/
def eacSrcCols : List String :=
  ["Date", "Action", "Symbol", "Quantity", "Amount", "Shares", "Type",
   "VestFairMarketValue", "PurchaseFairMarketValue", "VestDate", "PurchaseDate"]

/-- The one sale record the C2 scenario produces: the `Lot Sale` row of
the first (lot-carrying) sale, after cleanup. -/
def c2SaleRow : Row :=
  [("Date", .date (mkDate 2024 6 15)), ("Symbol", .str "AAPL"), ("Quantity", .num 50),
   ("Amount", .num 7500), ("Cost Basis", .num 5000), ("PurchaseDate", .str "01/01/2024")]

/-- C2 counterexample: on a plan-account source holding a sale with one
lot (dated `06/15/2024`) followed by a header-only `Sale` (dated
`07/20/2024`, `Quantity = 20`), the run succeeds but the finalized Sale
table holds exactly the one lot row of the first sale — no record (with
`CostBasis = 0`, `PurchaseDate = ""` or otherwise) exists for the
header-only sale; and on a source holding only header-only sales the
run does not even succeed: the sale-schema selection fails with
`KeyError`, since no lot row ever created the `Cost Basis` column.  Both
contradict the claim that the header-only sale is emitted and is not an
error. -/
theorem header_only_sale_counterexample :
    runPipeline c1Cfg ⟨none, none, some ⟨eacSrcCols, [c1Header, c1Lot, c2Header]⟩⟩ =
      .ok (⟨dividendCols, []⟩, ⟨interestCols, []⟩, ⟨taxCols, []⟩, ⟨saleCols, [c2SaleRow]⟩) ∧
    rowGetD c2SaleRow "Date" = .date (mkDate 2024 6 15) ∧
    rowGetD c2SaleRow "Quantity" = .num 50 ∧
    runPipeline c1Cfg ⟨none, none, some ⟨eacSrcCols, [c2Header]⟩⟩ = .error .keyError := by
  refine ⟨?_, ?_, ?_, ?_⟩ <;> with_unfolding_all rfl

/-- C2 amended: a `Sale` header row contributes no record to the Sale
table — it keeps `Action = "Sale"` through the reconstruction pass and
only `"Lot Sale"` rows are selected — so a header-only sale is silently
dropped when some other sale supplies a lot row (the run succeeds and
the Sale table holds only the lot rows), while a plan-account frame
with no lot rows at all aborts with `KeyError`: `populate_eac_sale_table`
selects the `Cost Basis` column, which only the lot pass creates,
before its emptiness check. -/
theorem header_only_sale_dropped :
    (normalizeEacDf c1Cfg [c1Header, c1Lot, c2Header]).isOk = true ∧
    lotCell (normalizeEacDf c1Cfg [c1Header, c1Lot, c2Header]) 0 "Action" = .str "Sale" ∧
    lotCell (normalizeEacDf c1Cfg [c1Header, c1Lot, c2Header]) 2 "Action" = .str "Sale" ∧
    runPipeline c1Cfg ⟨none, none, some ⟨eacSrcCols, [c1Header, c1Lot, c2Header]⟩⟩ =
      .ok (⟨dividendCols, []⟩, ⟨interestCols, []⟩, ⟨taxCols, []⟩, ⟨saleCols, [c2SaleRow]⟩) ∧
    runPipeline c1Cfg ⟨none, none, some ⟨eacSrcCols, [c1Header, c2Header]⟩⟩ =
      .error .keyError := by
  refine ⟨?_, ?_, ?_, ?_, ?_⟩ <;> with_unfolding_all rfl

/-! ## The column-level conversion versus its per-cell action -/

/-- One conditional replacement pass of `convert_amount_to_numeric`:
apply the character rewrite to every cell if any cell mentions the
trigger character. -/
def condStage (c : Char) (f : List Char → List Char) (l : List String) : List String :=
  if l.any (fun s => containsC s c) then l.map (fun s => String.mk (f s.data)) else l

/-- The string pipeline of `convert_amount_to_numeric` before the final
float parse (stringify, the three conditional replacement passes, and
the strip). -/
def stageStrs (col : List Cell) : List String :=
  (condStage '(' parenStep (condStage ',' (rmChar ',') (condStage '$' (rmChar '$') (col.map cellToStr)))).map stripStr

theorem convertAmount_eq_stage (col : List Cell) :
    convertAmountToNumeric col =
      (match optMap parseFloat (stageStrs col) with
        | some vals => .ok vals
        | none => .error .malformedAmount) := rfl

theorem stringMk_data (s : String) : String.mk s.data = s := by
  cases s
  rfl

theorem mem_rmChar {c x : Char} {l : List Char} : x ∈ rmChar c l ↔ x ∈ l ∧ x ≠ c := by
  simp [rmChar, List.mem_filter, bne_iff_ne]

theorem rmChar_of_not_mem {c : Char} {l : List Char} (h : c ∉ l) : rmChar c l = l := by
  apply List.filter_eq_self.mpr
  intro a ha
  simp only [bne_iff_ne, ne_eq, decide_eq_true_eq]
  exact fun hc => h (hc ▸ ha)

theorem parenStep_of_not_mem {l : List Char} (h1 : '(' ∉ l) (h2 : ')' ∉ l) : parenStep l = l := by
  induction l with
  | nil => rfl
  | cons c t ih =>
    simp only [List.mem_cons, not_or] at h1 h2
    have hc1 : c ≠ '(' := fun hc => h1.1 hc.symm
    have hc2 : c ≠ ')' := fun hc => h2.1 hc.symm
    simp only [parenStep, List.filterMap_cons, if_neg hc1, if_neg hc2]
    simp only [parenStep] at ih
    rw [ih h1.2 h2.2]

theorem containsC_iff {s : String} {c : Char} : containsC s c = true ↔ c ∈ s.data := by
  simp [containsC, List.contains, List.elem_iff]

theorem map_id_of {α : Type _} {f : α → α} {l : List α} (h : ∀ x ∈ l, f x = x) : l.map f = l := by
  induction l with
  | nil => rfl
  | cons a t ih =>
    simp only [List.map_cons]
    rw [h a (by simp), ih (fun x hx => h x (by simp [hx]))]

theorem condMap_eq {p : String → Bool} {f : String → String} (l : List String)
    (hid : ∀ s ∈ l, p s = false → f s = s) :
    (if l.any p then l.map f else l) = l.map f := by
  by_cases h : l.any p = true
  · rw [if_pos h]
  · have hf : l.any p = false := by revert h; cases l.any p <;> simp
    rw [if_neg (by simp [hf])]
    symm
    apply map_id_of
    intro s hs
    apply hid s hs
    cases hp : p s with
    | false => rfl
    | true => exact absurd (List.any_eq_true.mpr ⟨s, hs, hp⟩) (by simp [hf])

/-! ## `optMap` lemmas -/

theorem optMap_map (f : β → Option γ) (g : α → β) (l : List α) :
    optMap f (l.map g) = optMap (fun a => f (g a)) l := by
  induction l with
  | nil => rfl
  | cons a t ih => cases hfa : f (g a) <;> simp [optMap, hfa, ih]

theorem optMap_none_of_mem (f : α → Option β) {l : List α} {a : α} (ha : a ∈ l) (hf : f a = none) :
    optMap f l = none := by
  induction l with
  | nil => cases ha
  | cons b t ih =>
    rcases List.mem_cons.mp ha with h | h
    · subst h; simp [optMap, hf]
    · cases hfb : f b
      · simp [optMap, hfb]
      · simp [optMap, hfb, ih h]

theorem optMap_getElem? (f : α → Option β) :
    ∀ (l : List α) (l' : List β), optMap f l = some l' → ∀ (i : Nat), l'[i]? = (l[i]?).bind f := by
  intro l
  induction l with
  | nil =>
    intro l' h i
    simp only [optMap, Option.some.injEq] at h
    subst h
    simp
  | cons a t ih =>
    intro l' h i
    simp only [optMap] at h
    cases hfa : f a with
    | none => rw [hfa] at h; cases h
    | some b =>
      rw [hfa] at h
      cases ht : optMap f t with
      | none => rw [ht] at h; cases h
      | some tb =>
        rw [ht] at h
        cases h
        cases i with
        | zero => simp [hfa]
        | succ j => simp [ih tb ht j]

theorem optMap_length (f : α → Option β) :
    ∀ (l : List α) (l' : List β), optMap f l = some l' → l'.length = l.length := by
  intro l
  induction l with
  | nil =>
    intro l' h
    simp only [optMap, Option.some.injEq] at h
    subst h
    rfl
  | cons a t ih =>
    intro l' h
    simp only [optMap] at h
    cases hfa : f a with
    | none => rw [hfa] at h; cases h
    | some b =>
      rw [hfa] at h
      cases ht : optMap f t with
      | none => rw [ht] at h; cases h
      | some tb =>
        rw [ht] at h
        cases h
        simp [ih tb ht]

/-- The first per-cell image: `$` removed. -/
def cellStage1 (c : Cell) : String := String.mk (rmChar '$' (cellToStr c).data)

/-- The second per-cell image: `$` and `,` removed. -/
def cellStage2 (c : Cell) : String := String.mk (rmChar ',' (rmChar '$' (cellToStr c).data))

/-- The third per-cell image: parentheses rewritten as well. -/
def cellStage3 (c : Cell) : String := String.mk (parenStep (rmChar ',' (rmChar '$' (cellToStr c).data)))

theorem condStage_eq_map (c : Char) (f : List Char → List Char) (l : List String)
    (hid : ∀ s ∈ l, containsC s c = false → String.mk (f s.data) = s) :
    condStage c f l = l.map (fun s => String.mk (f s.data)) :=
  condMap_eq l hid

theorem stage1_eq (col : List Cell) :
    condStage '$' (rmChar '$') (col.map cellToStr) = col.map cellStage1 := by
  rw [condStage_eq_map _ _ _ (fun s hs hc => by
    have hnm : '$' ∉ s.data := fun hm => by simp [containsC_iff.mpr hm] at hc
    rw [rmChar_of_not_mem hnm, stringMk_data])]
  rw [List.map_map]
  rfl

theorem stage2_eq (col : List Cell) :
    condStage ',' (rmChar ',') (col.map cellStage1) = col.map cellStage2 := by
  rw [condStage_eq_map _ _ _ (fun s hs hc => by
    have hnm : ',' ∉ s.data := fun hm => by simp [containsC_iff.mpr hm] at hc
    rw [rmChar_of_not_mem hnm, stringMk_data])]
  rw [List.map_map]
  rfl

theorem stage3_eq (col : List Cell)
    (H : ∀ c ∈ col, ')' ∈ (cellToStr c).data → '(' ∈ (cellToStr c).data) :
    condStage '(' parenStep (col.map cellStage2) = col.map cellStage3 := by
  rw [condStage_eq_map _ _ _ (fun s hs hc => by
    obtain ⟨c, hcmem, hceq⟩ := List.mem_map.mp hs
    have hop : '(' ∉ s.data := fun hm => by simp [containsC_iff.mpr hm] at hc
    have hsdata : s.data = rmChar ',' (rmChar '$' (cellToStr c).data) := by rw [← hceq]; rfl
    have hcp : ')' ∉ s.data := by
      intro hm
      apply hop
      rw [hsdata] at hm ⊢
      have h2 : ')' ∈ (cellToStr c).data := (mem_rmChar.mp ((mem_rmChar.mp hm).1)).1
      have h3 : '(' ∈ (cellToStr c).data := H c hcmem h2
      exact mem_rmChar.mpr ⟨mem_rmChar.mpr ⟨h3, by decide⟩, by decide⟩
    rw [parenStep_of_not_mem hop hcp, stringMk_data])]
  rw [List.map_map]
  apply List.map_congr_left
  intro c _
  simp only [Function.comp, cellStage2, cellStage3]

/-- Bridge: when no cell's string holds a stray `)` without a `(` (the
only shape on which the column-wide conditional replacement can diverge
from the per-cell action), the column conversion is exactly the
per-cell normalization applied to every cell. -/
theorem convertAmount_cellwise (col : List Cell)
    (H : ∀ c ∈ col, ')' ∈ (cellToStr c).data → '(' ∈ (cellToStr c).data) :
    convertAmountToNumeric col =
      (match optMap cellConvert col with
        | some l => .ok l
        | none => .error .malformedAmount) := by
  rw [convertAmount_eq_stage]
  have hstage : stageStrs col = col.map (fun c => stripStr (cellStage3 c)) := by
    unfold stageStrs
    rw [stage1_eq, stage2_eq, stage3_eq col H, List.map_map]
    rfl
  rw [hstage, optMap_map]
  rfl

/-! ## Claim C10: missing amounts pass through as `NaN` -/

/-- One conditional replacement stage leaves untouched an element that
the replacement fixes. -/
theorem condStage_getElem? (c : Char) (f : List Char → List Char) (l : List String) (i : Nat)
    (s : String) (hs : l[i]? = some s) (hf : String.mk (f s.data) = s) :
    (condStage c f l)[i]? = some s := by
  unfold condStage
  by_cases hp : l.any (fun s => containsC s c) = true
  · simp [hp, List.getElem?_map, hs, hf]
  · simp [hp, hs]

/-- C10: a missing amount cell (`NaN`, as an empty CSV cell loads) is
not an error and is not coerced to zero: the per-cell normalization
maps `NaN` to itself (its `astype(str)` image `"nan"` parses back as
`NaN`), a one-cell missing column converts successfully, and in any
successful column conversion a missing input cell yields a missing
output cell at the same position. -/
theorem missing_amounts_pass_through :
    cellConvert Cell.nan = some Cell.nan ∧
    convertAmountToNumeric [Cell.nan] = .ok [Cell.nan] ∧
    (∀ (col out : List Cell) (i : Nat), convertAmountToNumeric col = .ok out →
      col[i]? = some Cell.nan → out[i]? = some Cell.nan) := by
  refine ⟨by with_unfolding_all rfl, by with_unfolding_all rfl, ?_⟩
  intro col out i h hc
  rw [convertAmount_eq_stage] at h
  have e0 : (col.map cellToStr)[i]? = some "nan" := by
    rw [List.getElem?_map, hc]
    rfl
  have e1 := condStage_getElem? '$' (rmChar '$') _ i "nan" e0 (by rfl)
  have e2 := condStage_getElem? ',' (rmChar ',') _ i "nan" e1 (by rfl)
  have e3 := condStage_getElem? '(' parenStep _ i "nan" e2 (by rfl)
  have e4 : (stageStrs col)[i]? = some "nan" := by
    unfold stageStrs
    rw [List.getElem?_map, e3]
    rfl
  cases hm : optMap parseFloat (stageStrs col) with
  | none => rw [hm] at h; cases h
  | some vals =>
    rw [hm] at h
    have hout : vals = out := by cases h; rfl
    subst hout
    have hv := optMap_getElem? parseFloat (stageStrs col) vals hm i
    rw [e4] at hv
    simpa using hv

/-- Witness for C10 on the singleton missing column. -/
theorem missing_amounts_pass_through_witness :
    convertAmountToNumeric [Cell.nan] = .ok [Cell.nan] ∧
    ([Cell.nan] : List Cell)[0]? = some Cell.nan ∧
    ([Cell.nan] : List Cell)[0]? = some Cell.nan :=
  ⟨by with_unfolding_all rfl, by with_unfolding_all rfl,
    missing_amounts_pass_through.2.2 [Cell.nan] [Cell.nan] 0
      (by with_unfolding_all rfl) (by with_unfolding_all rfl)⟩

/-! ## Claim C6: malformed amounts are rejected -/

/-- C6: any cell whose residual string after the stripping passes fails
to parse as a float aborts the whole column conversion with
`MalformedAmount` (under the same stray-`)` proviso as the bridge
lemma); nothing is coerced to zero.  The empty residue (`"$"`) and
stray letters (`"abc"`) are instances. -/
theorem malformed_amount_rejected :
    (∀ (col : List Cell) (c : Cell), c ∈ col → cellConvert c = none →
      (∀ c' ∈ col, ')' ∈ (cellToStr c').data → '(' ∈ (cellToStr c').data) →
      convertAmountToNumeric col = .error .malformedAmount) ∧
    cellConvert (.str "abc") = none ∧ cellConvert (.str "$") = none ∧
    convertAmountToNumeric [.str "abc"] = .error .malformedAmount ∧
    convertAmountToNumeric [.str "$"] = .error .malformedAmount := by
  refine ⟨?_, by with_unfolding_all rfl, by with_unfolding_all rfl,
    by with_unfolding_all rfl, by with_unfolding_all rfl⟩
  intro col c hmem hnone H
  rw [convertAmount_cellwise col H, optMap_none_of_mem cellConvert hmem hnone]

/-- Witness for C6 at the stray-letters column `["abc"]`. -/
theorem malformed_amount_rejected_witness :
    (Cell.str "abc" ∈ [Cell.str "abc"]) ∧
    convertAmountToNumeric [Cell.str "abc"] = .error .malformedAmount :=
  ⟨by simp,
    malformed_amount_rejected.1 [Cell.str "abc"] (Cell.str "abc") (by simp)
      (by with_unfolding_all rfl) (by decide)⟩

/-! ## Whitespace trimming lemmas -/

theorem dropWhile_head? {α : Type _} {p : α → Bool} {l : List α} {c : α}
    (h : (l.dropWhile p).head? = some c) : p c = false := by
  induction l with
  | nil => simp [List.dropWhile] at h
  | cons a t ih =>
    rw [List.dropWhile_cons] at h
    by_cases hp : p a = true
    · rw [if_pos hp] at h; exact ih h
    · rw [if_neg hp] at h
      simp only [List.head?_cons, Option.some.injEq] at h
      subst h
      revert hp; cases p a <;> simp

theorem dropWhile_of_head {α : Type _} {p : α → Bool} {l : List α}
    (h : ∀ c, l.head? = some c → p c = false) : l.dropWhile p = l := by
  cases l with
  | nil => rfl
  | cons a t => rw [List.dropWhile_cons, if_neg (by simp [h a rfl])]

theorem dropWhile_idem {α : Type _} (p : α → Bool) (l : List α) :
    (l.dropWhile p).dropWhile p = l.dropWhile p :=
  dropWhile_of_head (fun _ hc => dropWhile_head? hc)

theorem getLast?_dropWhile {α : Type _} (p : α → Bool) (l : List α)
    (h : l.dropWhile p ≠ []) : (l.dropWhile p).getLast? = l.getLast? := by
  induction l with
  | nil => simp [List.dropWhile] at h
  | cons a t ih =>
    rw [List.dropWhile_cons] at h ⊢
    by_cases hp : p a = true
    · rw [if_pos hp] at h ⊢
      rw [ih h]
      cases t with
      | nil => simp [List.dropWhile] at h
      | cons b u => rw [List.getLast?_cons_cons]
    · rw [if_neg hp]

theorem trimWs_idem (l : List Char) : trimWs (trimWs l) = trimWs l := by
  unfold trimWs
  have hDb : ((l.dropWhile Char.isWhitespace).reverse.dropWhile Char.isWhitespace).reverse.dropWhile
      Char.isWhitespace =
      ((l.dropWhile Char.isWhitespace).reverse.dropWhile Char.isWhitespace).reverse := by
    apply dropWhile_of_head
    intro ch hch
    rw [List.head?_reverse] at hch
    have hcne : (l.dropWhile Char.isWhitespace).reverse.dropWhile Char.isWhitespace ≠ [] := by
      intro he
      rw [he] at hch
      simp at hch
    rw [getLast?_dropWhile _ _ hcne, List.getLast?_reverse] at hch
    exact dropWhile_head? hch
  rw [hDb, List.reverse_reverse, dropWhile_idem]

/-! ## Claim C5: amount normalization of formatted strings -/

/-- Whether the string is wrapped in one pair of parentheses. -/
def isWrappedParen (l : List Char) : Bool :=
  decide (l.head? = some '(') && decide (l.getLast? = some ')') && decide (2 ≤ l.length)

/-- Modelled from the spec (the claim's algorithm text, for comparison
against the code's `cellConvert`): strip all literal `$` and `,`
characters; if the remainder is wrapped in `(` `)`, strip the
parentheses and prepend a minus sign; trim surrounding whitespace and
parse the residue as a float. -/
def specAmountNormalize (s : String) : Option Cell :=
  let t := rmChar ',' (rmChar '$' s.data)
  let t2 := if isWrappedParen t then '-' :: (t.drop 1).dropLast else t
  parseSigned (trimWs t2)

/-- The `$`,`,`-stripped string either has no parentheses at all or is
exactly one parenthesized group (the shapes a monetary string can
take). -/
def parenShapeOk (l : List Char) : Bool :=
  (!(l.contains '(') && !(l.contains ')')) ||
  (isWrappedParen l && !(((l.drop 1).dropLast).contains '(') && !(((l.drop 1).dropLast).contains ')'))

theorem mem_of_head? {α : Type _} {l : List α} {c : α} (h : l.head? = some c) : c ∈ l := by
  cases l with
  | nil => simp at h
  | cons a t =>
    simp only [List.head?_cons, Option.some.injEq] at h
    simp [← h]

theorem contains_iff_mem {l : List Char} {c : Char} : l.contains c = true ↔ c ∈ l := by
  simp [List.contains, List.elem_iff]

/-- C5: on every monetary string (any string whose `$`,`,`-stripped
remainder is paren-free or exactly parenthesized), the code's per-cell
normalization agrees with the spec's algorithm — strip `$` and `,`,
negate a parenthesized remainder, trim, parse — and on the four quoted
examples it produces `1234.56`, `-123.45`, `-1234.56`, `500.0`. -/
theorem amount_normalization_formats :
    (∀ s : String, parenShapeOk (rmChar ',' (rmChar '$' s.data)) = true →
      cellConvert (.str s) = specAmountNormalize s) ∧
    cellConvert (.str "$1,234.56") = some (.num (123456 / 100)) ∧
    cellConvert (.str "(123.45)") = some (.num (-12345 / 100)) ∧
    cellConvert (.str "($1,234.56)") = some (.num (-123456 / 100)) ∧
    cellConvert (.str "500") = some (.num 500) := by
  refine ⟨?_, by with_unfolding_all rfl, by with_unfolding_all rfl,
    by with_unfolding_all rfl, by with_unfolding_all rfl⟩
  intro s h
  show parseSigned (trimWs (trimWs (parenStep (rmChar ',' (rmChar '$' s.data))))) =
    parseSigned (trimWs (if isWrappedParen (rmChar ',' (rmChar '$' s.data)) then
      '-' :: ((rmChar ',' (rmChar '$' s.data)).drop 1).dropLast
    else rmChar ',' (rmChar '$' s.data)))
  set t := rmChar ',' (rmChar '$' s.data) with hts
  unfold parenShapeOk at h
  rw [Bool.or_eq_true] at h
  rcases h with hA | hB
  · -- no parentheses at all
    rw [Bool.and_eq_true] at hA
    have hop : '(' ∉ t := fun hm => by
      have := contains_iff_mem.mpr hm
      rw [this] at hA
      simp at hA
    have hcp : ')' ∉ t := fun hm => by
      have := contains_iff_mem.mpr hm
      rw [this] at hA
      simp at hA
    have hwr : isWrappedParen t = false := by
      unfold isWrappedParen
      rcases hh : t.head? with _ | ch
      · simp [hh]
      · have : ch ∈ t := mem_of_head? hh
        have hne : ch ≠ '(' := fun he => hop (he ▸ this)
        simp [hh, hne]
    rw [if_neg (by simp [hwr]), parenStep_of_not_mem hop hcp, trimWs_idem]
  · -- exactly one wrapping pair
    rw [Bool.and_eq_true, Bool.and_eq_true] at hB
    obtain ⟨⟨hwr0, hin1⟩, hin2⟩ := hB
    have hmid1 : '(' ∉ (t.drop 1).dropLast := fun hm => by
      rw [contains_iff_mem.mpr hm] at hin1; simp at hin1
    have hmid2 : ')' ∉ (t.drop 1).dropLast := fun hm => by
      rw [contains_iff_mem.mpr hm] at hin2; simp at hin2
    have hwr := hwr0
    unfold isWrappedParen at hwr
    rw [Bool.and_eq_true, Bool.and_eq_true] at hwr
    obtain ⟨⟨hh, hl⟩, _⟩ := hwr
    rw [decide_eq_true_eq] at hh hl
    rw [if_pos (by rw [hwr0] : isWrappedParen t = true)]
    -- decompose t = '(' :: xs.reverse ++ [')']
    have hpt : parenStep t = '-' :: (t.drop 1).dropLast := by
      cases ht : t with
      | nil => rw [ht] at hh; simp at hh
      | cons c0 rest =>
        rw [ht] at hh
        simp only [List.head?_cons, Option.some.injEq] at hh
        subst hh
        rcases hrev : rest.reverse with _ | ⟨x, xs⟩
        · have : rest = [] := by simpa using congrArg List.reverse hrev
          subst this
          rw [ht] at hl
          simp at hl
        · have hrest : rest = xs.reverse ++ [x] := by
            have := congrArg List.reverse hrev
            simpa using this
          have hx : x = ')' := by
            rw [List.getLast?_eq_head?_reverse, ht] at hl
            rw [List.reverse_cons, hrev] at hl
            simpa using hl
          subst hx
          have hdropLast : (t.drop 1).dropLast = xs.reverse := by
            rw [ht, hrest]
            simp [List.dropLast_concat]
          rw [hdropLast] at hmid1 hmid2
          rw [hrest]
          simp [parenStep, List.filterMap_append, parenStep_of_not_mem hmid1 hmid2,
            List.dropLast_concat]
          exact parenStep_of_not_mem (fun hm => hmid1 (List.mem_reverse.mpr hm))
            (fun hm => hmid2 (List.mem_reverse.mpr hm))
    rw [hpt, trimWs_idem]

/-- Witness for C5 at `"($1,234.56)"`. -/
theorem amount_normalization_formats_witness :
    parenShapeOk (rmChar ',' (rmChar '$' "($1,234.56)".data)) = true ∧
    cellConvert (.str "($1,234.56)") = specAmountNormalize "($1,234.56)" :=
  ⟨by decide,
    amount_normalization_formats.1 "($1,234.56)" (by decide)⟩

/-! ## Digit machinery for the float round trip -/

theorem natDigitsAux_eq : ∀ (fuel n : Nat), n ≤ fuel → natDigitsAux fuel n = Nat.digits 10 n := by
  intro fuel
  induction fuel with
  | zero =>
    intro n hn
    have : n = 0 := Nat.le_zero.mp hn
    subst this
    simp [natDigitsAux]
  | succ f ih =>
    intro n hn
    cases n with
    | zero => simp [natDigitsAux]
    | succ m =>
      rw [natDigitsAux]
      have hdiv : (m + 1) / 10 < m + 1 := Nat.div_lt_self (Nat.succ_pos m) (by norm_num)
      rw [ih ((m + 1) / 10) (by omega)]
      rw [Nat.digits_def' (by norm_num : (1 : ℕ) < 10) (Nat.succ_pos m)]

theorem natDigits_eq (n : Nat) : natDigits n = Nat.digits 10 n :=
  natDigitsAux_eq n n le_rfl

theorem digitChar_props (d : Nat) :
    (digitChar d).isDigit = true ∧ digVal (digitChar d) = d % 10 ∧
    (digitChar d).isWhitespace = false ∧ lowerChar (digitChar d) = digitChar d ∧
    digitChar d ≠ '-' ∧ digitChar d ≠ '+' ∧ digitChar d ≠ '.' ∧
    digitChar d ≠ '$' ∧ digitChar d ≠ ',' ∧ digitChar d ≠ '(' ∧ digitChar d ≠ ')' ∧
    digitChar d ≠ 'n' ∧ digitChar d ≠ 'i' := by
  have h : d % 10 < 10 := Nat.mod_lt _ (by norm_num)
  unfold digitChar digVal lowerChar
  generalize hg : d % 10 = e at *
  interval_cases e <;> exact ⟨rfl, rfl, rfl, rfl, by decide, by decide, by decide, by decide,
    by decide, by decide, by decide, by decide, by decide⟩

theorem digitsVal_foldl_eq : ∀ (ds : List Nat), (∀ d ∈ ds, d < 10) → ∀ (acc : Nat),
    List.foldl (fun a c => a * 10 + digVal c) acc ((ds.reverse).map digitChar) =
      acc * 10 ^ ds.length + Nat.ofDigits 10 ds := by
  intro ds
  induction ds with
  | nil =>
    intro _ acc
    simp [Nat.ofDigits_nil]
  | cons d t ih =>
    intro hd acc
    rw [List.reverse_cons, List.map_append, List.foldl_append]
    rw [ih (fun x hx => hd x (by simp [hx])) acc]
    simp only [List.map_cons, List.map_nil, List.foldl_cons, List.foldl_nil]
    rw [(digitChar_props d).2.1, Nat.mod_eq_of_lt (hd d (by simp))]
    rw [Nat.ofDigits_cons]
    simp only [List.length_cons]
    ring

theorem digitsVal_natChars (n : Nat) : digitsVal (natChars n) = n := by
  unfold digitsVal natChars
  rw [natDigits_eq]
  rw [digitsVal_foldl_eq _ (fun d hd => Nat.digits_lt_base (by norm_num) hd) 0]
  simp [Nat.ofDigits_digits]

theorem natChars_all_digits (n : Nat) : ∀ c ∈ natChars n, c.isDigit = true := by
  intro c hc
  unfold natChars at hc
  obtain ⟨d, _, hd⟩ := List.mem_map.mp hc
  rw [← hd]
  exact (digitChar_props d).1

theorem digits_ten_len_le : ∀ (k n : Nat), n < 10 ^ k → (Nat.digits 10 n).length ≤ k := by
  intro k
  induction k with
  | zero =>
    intro n hn
    have : n = 0 := by simpa using hn
    subst this
    simp
  | succ j ih =>
    intro n hn
    rcases Nat.eq_zero_or_pos n with h0 | h0
    · subst h0; simp
    · rw [Nat.digits_def' (by norm_num : (1 : ℕ) < 10) h0]
      have hdiv : n / 10 < 10 ^ j := by
        rw [Nat.div_lt_iff_lt_mul (by norm_num : 0 < 10)]
        calc n < 10 ^ (j + 1) := hn
        _ = 10 ^ j * 10 := by ring
      simpa using ih (n / 10) hdiv

theorem natChars_length_le {n k : Nat} (h : n < 10 ^ k) : (natChars n).length ≤ k := by
  unfold natChars
  rw [List.length_map, List.length_reverse, natDigits_eq]
  exact digits_ten_len_le k n h

theorem intChars_all_digits (n : Nat) : ∀ c ∈ intChars n, c.isDigit = true := by
  intro c hc
  unfold intChars at hc
  by_cases hn : n = 0
  · rw [if_pos hn] at hc
    simp at hc
    subst hc
    decide
  · rw [if_neg hn] at hc
    exact natChars_all_digits n c hc

theorem digitsVal_intChars (n : Nat) : digitsVal (intChars n) = n := by
  unfold intChars
  by_cases hn : n = 0
  · subst hn; rfl
  · rw [if_neg hn]; exact digitsVal_natChars n

theorem intChars_ne_nil (n : Nat) : intChars n ≠ [] := by
  unfold intChars
  by_cases hn : n = 0
  · simp [hn]
  · rw [if_neg hn]
    unfold natChars
    simp only [ne_eq, List.map_eq_nil_iff, List.reverse_eq_nil_iff]
    rw [natDigits_eq]
    exact Nat.digits_ne_nil_iff_ne_zero.mpr hn

theorem digitsVal_replicate_zero (j : Nat) (l : List Char) :
    digitsVal (List.replicate j '0' ++ l) = digitsVal l := by
  unfold digitsVal
  rw [List.foldl_append]
  have : List.foldl (fun a c => a * 10 + digVal c) 0 (List.replicate j '0') = 0 := by
    induction j with
    | zero => rfl
    | succ i ih => rw [List.replicate_succ, List.foldl_cons]; simpa using ih
  rw [this]

theorem fracChars_length {n k : Nat} (h : n < 10 ^ k) : (fracChars n k).length = k := by
  unfold fracChars
  rw [List.length_append, List.length_replicate]
  have := natChars_length_le h
  omega

theorem digitsVal_fracChars (n k : Nat) : digitsVal (fracChars n k) = n := by
  unfold fracChars
  rw [digitsVal_replicate_zero, digitsVal_natChars]

theorem fracChars_all_digits (n k : Nat) : ∀ c ∈ fracChars n k, c.isDigit = true := by
  intro c hc
  unfold fracChars at hc
  rcases List.mem_append.mp hc with hc | hc
  · rw [List.eq_of_mem_replicate hc]
    decide
  · exact natChars_all_digits n c hc

/-! ## `spanDigits` lemmas -/

theorem spanDigits_append {l1 l2 : List Char} {x : Char}
    (h1 : ∀ c ∈ l1, c.isDigit = true) (hx : x.isDigit = false) :
    spanDigits (l1 ++ x :: l2) = (l1, x :: l2) := by
  induction l1 with
  | nil =>
    simp only [List.nil_append, spanDigits]
    rw [if_neg (by simp [hx])]
  | cons c t ih =>
    simp only [List.cons_append, spanDigits, List.append_eq]
    rw [if_pos (h1 c (by simp)), ih (fun d hd => h1 d (by simp [hd]))]

theorem spanDigits_all {l : List Char} (h : ∀ c ∈ l, c.isDigit = true) :
    spanDigits l = (l, []) := by
  induction l with
  | nil => rfl
  | cons c t ih =>
    simp only [spanDigits]
    rw [if_pos (h c (by simp)), ih (fun d hd => h d (by simp [hd]))]

theorem trimWs_of_no_ws {l : List Char} (h : ∀ c ∈ l, c.isWhitespace = false) : trimWs l = l := by
  unfold trimWs
  rw [dropWhile_of_head (fun c hc => h c (mem_of_head? hc))]
  rw [dropWhile_of_head (fun c hc => h c (List.mem_reverse.mp (mem_of_head? hc)))]
  exact List.reverse_reverse l

/-! ## Decimal rationals: the value range of float parsing -/

/-- A rational with a power-of-ten denominator — the (idealized) values
decimal float literals denote.  Every IEEE-754 double is such a value
(its denominator is a power of two). -/
def DecimalRat (q : ℚ) : Prop := ∃ (m : ℤ) (k : ℕ), q = m / 10 ^ k

theorem decimalRat_natCast (n : ℕ) : DecimalRat n := ⟨n, 0, by simp⟩

theorem decimalRat_base (a b k : ℕ) : DecimalRat ((a : ℚ) + (b : ℚ) / 10 ^ k) := by
  refine ⟨a * 10 ^ k + b, k, ?_⟩
  have hpow : (10 : ℚ) ^ k ≠ 0 := by positivity
  push_cast
  field_simp

theorem decimalRat_mul_pow {q : ℚ} (e : ℕ) (h : DecimalRat q) : DecimalRat (q * 10 ^ e) := by
  obtain ⟨m, k, hq⟩ := h
  exact ⟨m * 10 ^ e, k, by rw [hq]; push_cast; ring⟩

theorem decimalRat_div_pow {q : ℚ} (e : ℕ) (h : DecimalRat q) : DecimalRat (q / 10 ^ e) := by
  obtain ⟨m, k, hq⟩ := h
  refine ⟨m, k + e, by rw [hq, div_div, ← pow_add]⟩

theorem decimalRat_neg {q : ℚ} (h : DecimalRat q) : DecimalRat (-q) := by
  obtain ⟨m, k, hq⟩ := h
  exact ⟨-m, k, by rw [hq]; push_cast; ring⟩

theorem expCore_decimal {q q' : ℚ} (hq : DecimalRat q) (b : Bool) (l : List Char)
    (h : (if l.isEmpty || !(l.all Char.isDigit) then none
          else some (if b then q / 10 ^ digitsVal l else q * 10 ^ digitsVal l)) = some q') :
    DecimalRat q' := by
  split at h
  · cases h
  · simp only [Option.some.injEq] at h
    subst h
    cases b with
    | true => simpa using decimalRat_div_pow (digitsVal l) hq
    | false => simpa using decimalRat_mul_pow (digitsVal l) hq

theorem parseExpTail_decimal {q q' : ℚ} {r : List Char} (hq : DecimalRat q)
    (h : parseExpTail q r = some q') : DecimalRat q' := by
  unfold parseExpTail at h
  exact expCore_decimal hq _ _ h

theorem parseExpPart_decimal {q q' : ℚ} {l : List Char} (hq : DecimalRat q)
    (h : parseExpPart q l = some q') : DecimalRat q' := by
  cases l with
  | nil =>
    simp only [parseExpPart, Option.some.injEq] at h
    subst h
    exact hq
  | cons c r =>
    simp only [parseExpPart] at h
    by_cases hc : c = 'e' ∨ c = 'E'
    · rw [if_pos hc] at h
      exact parseExpTail_decimal hq h
    · rw [if_neg hc] at h
      cases h

theorem parseMantissa_decimal {l : List Char} {q : ℚ} (h : parseMantissa l = some q) :
    DecimalRat q := by
  simp only [parseMantissa] at h
  split at h
  · split at h
    · split at h
      · cases h
      · exact parseExpPart_decimal (decimalRat_base _ _ _) h
    · split at h
      · cases h
      · exact parseExpPart_decimal (decimalRat_natCast _) h
  · split at h
    · cases h
    · exact parseExpPart_decimal (decimalRat_natCast _) h

/-- The value range of a successful float parse: `NaN`, an infinity, or
a decimal rational. -/
def ParseRange (c : Cell) : Prop :=
  c = .nan ∨ (∃ b, c = .inf b) ∨ (∃ q, c = .num q ∧ DecimalRat q)

theorem parseCore_range {r : List Char} {c : Cell} (h : parseCore r = some c) : ParseRange c := by
  unfold parseCore at h
  split at h
  · simp only [Option.some.injEq] at h
    exact Or.inl h.symm
  · split at h
    · simp only [Option.some.injEq] at h
      exact Or.inr (Or.inl ⟨false, h.symm⟩)
    · cases hm : parseMantissa r with
      | none => rw [hm] at h; cases h
      | some q =>
        rw [hm] at h
        simp only [Option.map_some', Option.some.injEq] at h
        exact Or.inr (Or.inr ⟨q, h.symm, parseMantissa_decimal hm⟩)

theorem negCell_range {c : Cell} (h : ParseRange c) : ParseRange (negCell c) := by
  rcases h with h | ⟨b, h⟩ | ⟨q, h, hq⟩ <;> subst h
  · exact Or.inl rfl
  · exact Or.inr (Or.inl ⟨!b, rfl⟩)
  · exact Or.inr (Or.inr ⟨-q, rfl, decimalRat_neg hq⟩)

theorem parseSigned_range {l : List Char} {c : Cell} (h : parseSigned l = some c) :
    ParseRange c := by
  unfold parseSigned at h
  split at h
  · exact parseCore_range h
  · split at h
    · cases hm : parseCore _ with
      | none =>
        rename_i r _
        rw [hm] at h
        cases h
      | some c0 =>
        rename_i r _
        rw [hm] at h
        simp only [Option.map_some', Option.some.injEq] at h
        subst h
        exact negCell_range (parseCore_range hm)
    · split at h
      · exact parseCore_range h
      · exact parseCore_range h

theorem parseFloat_range {s : String} {c : Cell} (h : parseFloat s = some c) : ParseRange c :=
  parseSigned_range h

/-! ## `decExp` finds an exponent for every decimal rational -/

theorem dvd_ten_pow_self {d j : ℕ} (hd : d ≠ 0) (h : d ∣ 10 ^ j) : d ∣ 10 ^ d := by
  rw [← Nat.factorization_le_iff_dvd hd (pow_ne_zero d (by norm_num))]
  have hle := (Nat.factorization_le_iff_dvd hd (pow_ne_zero j (by norm_num))).mpr h
  rw [Nat.factorization_pow] at hle
  rw [Nat.factorization_pow]
  rw [Finsupp.le_def] at hle ⊢
  intro p
  have hp := hle p
  simp only [Finsupp.smul_apply, smul_eq_mul] at hp ⊢
  by_cases h10 : (Nat.factorization 10) p = 0
  · rw [h10] at hp ⊢
    omega
  · have h1 : 1 ≤ (Nat.factorization 10) p := Nat.pos_of_ne_zero h10
    have h2 : d.factorization p < d := Nat.factorization_lt p hd
    calc d.factorization p ≤ d := le_of_lt h2
    _ = d * 1 := by ring
    _ ≤ d * (Nat.factorization 10) p := Nat.mul_le_mul_left d h1

theorem decExp_spec {q : ℚ} (h : DecimalRat q) : ∃ k, decExp q.den = some k ∧ q.den ∣ 10 ^ k := by
  obtain ⟨m, j, hq⟩ := h
  have hdvd : (q.den : ℤ) ∣ (10 : ℤ) ^ j := by
    have h1 : q = Rat.divInt m ((10 : ℤ) ^ j) := by
      rw [Rat.divInt_eq_div]
      push_cast
      exact hq
    rw [h1]
    exact Rat.den_dvd m ((10 : ℤ) ^ j)
  have hdvdN : q.den ∣ 10 ^ j := by
    have h2 : ((10 : ℤ) ^ j) = ((10 ^ j : ℕ) : ℤ) := by push_cast; ring
    rw [h2] at hdvd
    exact Int.natCast_dvd_natCast.mp hdvd
  have hden : q.den ≠ 0 := q.den_nz
  have hd2 : q.den ∣ 10 ^ q.den := dvd_ten_pow_self hden hdvdN
  have hfind : (decExp q.den).isSome := by
    unfold decExp
    rw [List.find?_isSome]
    refine ⟨q.den, List.mem_range.mpr (Nat.lt_succ_self _), ?_⟩
    simp [Nat.mod_eq_zero_of_dvd hd2]
  obtain ⟨k, hk⟩ := Option.isSome_iff_exists.mp hfind
  refine ⟨k, hk, Nat.dvd_of_mod_eq_zero ?_⟩
  simpa using List.find?_some hk

/-! ## The float print / parse round trip -/

theorem intChars_mem_shape (n : Nat) : ∀ c ∈ intChars n, ∃ d, c = digitChar d := by
  intro c hc
  unfold intChars at hc
  by_cases hn : n = 0
  · rw [if_pos hn] at hc
    simp at hc
    exact ⟨0, hc⟩
  · rw [if_neg hn] at hc
    obtain ⟨d, _, hd⟩ := List.mem_map.mp hc
    exact ⟨d, hd.symm⟩

theorem fracChars_mem_shape (n k : Nat) : ∀ c ∈ fracChars n k, ∃ d, c = digitChar d := by
  intro c hc
  unfold fracChars at hc
  rcases List.mem_append.mp hc with hc | hc
  · exact ⟨0, List.eq_of_mem_replicate hc⟩
  · obtain ⟨d, _, hd⟩ := List.mem_map.mp hc
    exact ⟨d, hd.symm⟩

theorem intChars_shape (n : Nat) : ∃ d l', intChars n = digitChar d :: l' := by
  unfold intChars
  by_cases hn : n = 0
  · rw [if_pos hn]
    exact ⟨0, [], rfl⟩
  · rw [if_neg hn]
    unfold natChars
    rcases hr : (natDigits n).reverse with _ | ⟨d, ds⟩
    · exfalso
      have hnil : natDigits n = [] := by simpa using congrArg List.reverse hr
      rw [natDigits_eq] at hnil
      exact (Nat.digits_ne_nil_iff_ne_zero.mpr hn) hnil
    · refine ⟨d, ds.map digitChar, ?_⟩
      rw [List.map_cons]

theorem parse_decRepr {q : ℚ} (h : DecimalRat q) : parseFloat (decRepr q) = some (.num q) := by
  obtain ⟨k, hk, hdvd⟩ := decExp_spec h
  have hrepr : decRepr q = String.mk ((if q.num < 0 then ['-'] else []) ++
      intChars ((q.num.natAbs * (10 ^ max k 1 / q.den)) / 10 ^ max k 1) ++
      '.' :: fracChars ((q.num.natAbs * (10 ^ max k 1 / q.den)) % 10 ^ max k 1) (max k 1)) := by
    simp only [decRepr, hk]
  set K := max k 1 with hKdef
  have hKdvd : q.den ∣ 10 ^ K := dvd_trans hdvd (pow_dvd_pow 10 (le_max_left k 1))
  set u := 10 ^ K / q.den with hu
  have huu : q.den * u = 10 ^ K := Nat.mul_div_cancel' hKdvd
  have hu0 : u ≠ 0 := by
    intro h0
    rw [h0, Nat.mul_zero] at huu
    exact absurd huu.symm (pow_ne_zero K (by norm_num))
  set m := q.num.natAbs * u with hm
  set A := m / 10 ^ K with hA
  set B := m % 10 ^ K with hB
  have hBlt : B < 10 ^ K := Nat.mod_lt _ (by positivity)
  set body := intChars A ++ '.' :: fracChars B K with hbody
  have hrepr2 : (decRepr q).data = (if q.num < 0 then ['-'] else []) ++ body := by
    rw [hrepr, hbody]
    show ((if q.num < 0 then ['-'] else []) ++ intChars A ++ '.' :: fracChars B K) = _
    rw [List.append_assoc]
  -- membership shape of the body characters
  have hshape : ∀ c ∈ body, (∃ d, c = digitChar d) ∨ c = '.' := by
    intro c hc
    rw [hbody] at hc
    rcases List.mem_append.mp hc with hc | hc
    · exact Or.inl (intChars_mem_shape A c hc)
    · rcases List.mem_cons.mp hc with hc | hc
      · exact Or.inr hc
      · exact Or.inl (fracChars_mem_shape B K c hc)
  -- no whitespace anywhere in the printed string
  have hnws0 : ∀ c ∈ (if q.num < 0 then ['-'] else []) ++ body, c.isWhitespace = false := by
    intro c hc
    rcases List.mem_append.mp hc with hc2 | hc2
    · by_cases hneg : q.num < 0
      · rw [if_pos hneg] at hc2
        simp at hc2
        subst hc2
        decide
      · rw [if_neg hneg] at hc2
        simp at hc2
    · rcases hshape c hc2 with ⟨d, hd⟩ | hd
      · rw [hd]; exact (digitChar_props d).2.2.1
      · rw [hd]; decide
  -- lower-casing fixes the body
  have hlower : body.map lowerChar = body := map_id_of (fun c hc => by
    rcases hshape c hc with ⟨d, hd⟩ | hd
    · rw [hd]; exact (digitChar_props d).2.2.2.1
    · rw [hd]; decide)
  -- head of the body is a digit character
  obtain ⟨d0, l0, hint⟩ := intChars_shape A
  have hbody' : body = digitChar d0 :: (l0 ++ '.' :: fracChars B K) := by
    rw [hbody, hint]
    rfl
  -- the mantissa value
  have hspan : spanDigits body = (intChars A, '.' :: fracChars B K) := by
    rw [hbody]
    exact spanDigits_append (intChars_all_digits A) (by decide)
  have hfrac : spanDigits (fracChars B K) = (fracChars B K, []) :=
    spanDigits_all (fracChars_all_digits B K)
  have hie : ((intChars A).isEmpty && (fracChars B K).isEmpty) = false := by
    rw [hint]
    rfl
  have hmant : parseMantissa body = some ((A : ℚ) + (B : ℚ) / 10 ^ K) := by
    simp only [parseMantissa, hspan, hfrac]
    simp only [if_true]
    rw [if_neg (by simp [hie])]
    simp only [parseExpPart]
    rw [digitsVal_intChars, digitsVal_fracChars, fracChars_length hBlt]
  -- the mantissa value is |q|
  have hmqN : m = A * 10 ^ K + B := by
    rw [hA, hB]
    exact (Nat.div_add_mod' m (10 ^ K)).symm
  have hmq : (m : ℚ) = (A : ℚ) * 10 ^ K + (B : ℚ) := by exact_mod_cast hmqN
  have hval : (A : ℚ) + (B : ℚ) / 10 ^ K = (q.num.natAbs : ℚ) / (q.den : ℚ) := by
    have hpow : ((10 : ℚ)) ^ K ≠ 0 := by positivity
    have huq : ((u : ℚ)) ≠ 0 := by
      simpa using hu0
    have h10 : ((10 : ℚ)) ^ K = (q.den : ℚ) * (u : ℚ) := by
      have hc := congrArg (fun n : ℕ => (n : ℚ)) huu
      push_cast at hc
      exact hc.symm
    have hmm : (m : ℚ) = (q.num.natAbs : ℚ) * (u : ℚ) := by
      have hc := congrArg (fun n : ℕ => (n : ℚ)) hm
      push_cast at hc
      exact hc
    have hstep : (A : ℚ) + (B : ℚ) / 10 ^ K = ((A : ℚ) * 10 ^ K + (B : ℚ)) / 10 ^ K := by
      field_simp
    rw [hstep, ← hmq, hmm, h10, mul_div_mul_right _ _ huq]
  -- parseCore on the body
  have hcore : parseCore body = some (.num ((q.num.natAbs : ℚ) / (q.den : ℚ))) := by
    unfold parseCore
    rw [hlower]
    rw [if_neg (by
      intro he
      have h2 : List.head? body = List.head? ("nan".data) := congrArg List.head? he
      rw [hbody'] at h2
      rw [show List.head? ("nan".data) = some 'n' from rfl] at h2
      simp only [List.head?_cons, Option.some.injEq] at h2
      exact (digitChar_props d0).2.2.2.2.2.2.2.2.2.2.2.1 h2)]
    rw [if_neg (by
      intro he
      rcases he with he | he <;>
      · have h2 : List.head? body = some 'i' := by rw [he]; rfl
        rw [hbody'] at h2
        simp only [List.head?_cons, Option.some.injEq] at h2
        exact (digitChar_props d0).2.2.2.2.2.2.2.2.2.2.2.2 h2)]
    rw [hmant, hval]
    rfl
  -- assemble through the sign
  unfold parseFloat
  rw [hrepr2, trimWs_of_no_ws hnws0]
  by_cases hneg : q.num < 0
  · rw [if_pos hneg]
    have hca : (['-'] ++ body) = '-' :: body := rfl
    rw [hca]
    simp only [parseSigned]
    simp only [if_true]
    rw [hcore]
    have habs : ((q.num.natAbs : ℤ)) = -q.num := by omega
    have hcast : ((q.num.natAbs : ℚ)) = -((q.num : ℚ)) := by
      have hc := congrArg (fun z : ℤ => (z : ℚ)) habs
      push_cast at hc
      rw [Int.cast_natAbs, Int.cast_abs]
      exact hc
    simp only [Option.map_some', negCell, Option.some.injEq, Cell.num.injEq]
    rw [hcast, neg_div, neg_neg]
    exact Rat.num_div_den q
  · rw [if_neg hneg]
    have hca : ([] ++ body) = body := rfl
    rw [hca, hbody']
    simp only [parseSigned]
    rw [if_neg ((digitChar_props d0).2.2.2.2.1), if_neg ((digitChar_props d0).2.2.2.2.2.1)]
    rw [← hbody', hcore]
    have habs : ((q.num.natAbs : ℤ)) = q.num := by omega
    have hcast : ((q.num.natAbs : ℚ)) = ((q.num : ℚ)) := by
      have hc := congrArg (fun z : ℤ => (z : ℚ)) habs
      push_cast at hc
      rw [Int.cast_natAbs, Int.cast_abs]
      exact hc
    simp only [Option.some.injEq, Cell.num.injEq]
    rw [hcast]
    exact Rat.num_div_den q

/-! ## Claim C7: idempotence on already-numeric columns -/

theorem optMap_mem (f : α → Option β) :
    ∀ (l : List α) (l' : List β), optMap f l = some l' → ∀ b ∈ l', ∃ a ∈ l, f a = some b := by
  intro l
  induction l with
  | nil =>
    intro l' h b hb
    simp only [optMap, Option.some.injEq] at h
    subst h
    simp at hb
  | cons a t ih =>
    intro l' h b hb
    simp only [optMap] at h
    cases hfa : f a with
    | none => rw [hfa] at h; cases h
    | some b0 =>
      rw [hfa] at h
      cases ht : optMap f t with
      | none => rw [ht] at h; cases h
      | some tb =>
        rw [ht] at h
        cases h
        rcases List.mem_cons.mp hb with hb | hb
        · exact ⟨a, by simp, by rw [hfa, hb]⟩
        · obtain ⟨a', ha', hfa'⟩ := ih tb ht b hb
          exact ⟨a', by simp [ha'], hfa'⟩

theorem optMap_all (f : α → Option α) (l : List α) (h : ∀ a ∈ l, f a = some a) :
    optMap f l = some l := by
  induction l with
  | nil => rfl
  | cons a t ih =>
    simp only [optMap]
    rw [h a (by simp), ih (fun x hx => h x (by simp [hx]))]

theorem condStage_id (c : Char) (f : List Char → List Char) (l : List String)
    (h : ∀ s ∈ l, containsC s c = false) : condStage c f l = l := by
  unfold condStage
  rw [if_neg ?_]
  simp only [List.any_eq_true, not_exists, not_and]
  intro s hs
  simp [h s hs]

theorem parseFloat_cellToStr {c : Cell} (h : ParseRange c) : parseFloat (cellToStr c) = some c := by
  rcases h with h | ⟨b, h⟩ | ⟨q, h, hq⟩
  · subst h; rfl
  · subst h; cases b <;> rfl
  · subst h; exact parse_decRepr hq

theorem decRepr_chars {q : ℚ} (h : DecimalRat q) :
    ∀ ch ∈ (decRepr q).data, (∃ d, ch = digitChar d) ∨ ch = '.' ∨ ch = '-' := by
  obtain ⟨k, hk, _⟩ := decExp_spec h
  intro ch hc
  simp only [decRepr, hk] at hc
  have hc' : ch ∈ (if q.num < 0 then ['-'] else []) ++
      intChars ((q.num.natAbs * (10 ^ max k 1 / q.den)) / 10 ^ max k 1) ++
      '.' :: fracChars ((q.num.natAbs * (10 ^ max k 1 / q.den)) % 10 ^ max k 1) (max k 1) := hc
  rcases List.mem_append.mp hc' with hc2 | hc2
  · rcases List.mem_append.mp hc2 with hc3 | hc3
    · by_cases hneg : q.num < 0
      · rw [if_pos hneg] at hc3
        simp at hc3
        exact Or.inr (Or.inr hc3)
      · rw [if_neg hneg] at hc3
        simp at hc3
    · exact Or.inl (intChars_mem_shape _ ch hc3)
  · rcases List.mem_cons.mp hc2 with hc3 | hc3
    · exact Or.inr (Or.inl hc3)
    · exact Or.inl (fracChars_mem_shape _ _ ch hc3)

theorem cellToStr_range_chars {c : Cell} (h : ParseRange c) :
    ∀ ch ∈ (cellToStr c).data,
      ch ≠ '$' ∧ ch ≠ ',' ∧ ch ≠ '(' ∧ ch ≠ ')' ∧ ch.isWhitespace = false := by
  rcases h with h | ⟨b, h⟩ | ⟨q, h, hq⟩
  · subst h
    decide
  · subst h
    cases b <;> decide
  · subst h
    intro ch hch
    rcases decRepr_chars hq ch hch with ⟨d, hd⟩ | hd | hd
    · subst hd
      have hp := digitChar_props d
      exact ⟨hp.2.2.2.2.2.2.2.1, hp.2.2.2.2.2.2.2.2.1, hp.2.2.2.2.2.2.2.2.2.1,
        hp.2.2.2.2.2.2.2.2.2.2.1, hp.2.2.1⟩
    · subst hd; exact ⟨by decide, by decide, by decide, by decide, by decide⟩
    · subst hd; exact ⟨by decide, by decide, by decide, by decide, by decide⟩

/-- C7: the amount normalizer is idempotent — re-running the conversion
on the (already numeric) output of a successful conversion returns that
output unchanged (each numeric value is stringified by `astype(str)`
and parses back to itself, and none of the replacement passes fire). -/
theorem amount_normalization_idempotent :
    ∀ (col out : List Cell), convertAmountToNumeric col = .ok out →
      convertAmountToNumeric out = .ok out := by
  intro col out h
  have hrange : ∀ c ∈ out, ParseRange c := by
    rw [convertAmount_eq_stage] at h
    cases hm : optMap parseFloat (stageStrs col) with
    | none => rw [hm] at h; cases h
    | some vals =>
      rw [hm] at h
      have hout : vals = out := by cases h; rfl
      subst hout
      intro c hc
      obtain ⟨s, _, hs⟩ := optMap_mem parseFloat _ _ hm c hc
      exact parseFloat_range hs
  have hchars := fun c (hc : c ∈ out) => cellToStr_range_chars (hrange c hc)
  rw [convertAmount_eq_stage]
  have h1 : condStage '$' (rmChar '$') (out.map cellToStr) = out.map cellToStr := by
    apply condStage_id
    intro s hs
    obtain ⟨c, hc, hceq⟩ := List.mem_map.mp hs
    subst hceq
    cases hb : containsC (cellToStr c) '$' with
    | false => rfl
    | true => exact absurd rfl (hchars c hc '$' (containsC_iff.mp hb)).1
  have h2 : condStage ',' (rmChar ',') (out.map cellToStr) = out.map cellToStr := by
    apply condStage_id
    intro s hs
    obtain ⟨c, hc, hceq⟩ := List.mem_map.mp hs
    subst hceq
    cases hb : containsC (cellToStr c) ',' with
    | false => rfl
    | true => exact absurd rfl (hchars c hc ',' (containsC_iff.mp hb)).2.1
  have h3 : condStage '(' parenStep (out.map cellToStr) = out.map cellToStr := by
    apply condStage_id
    intro s hs
    obtain ⟨c, hc, hceq⟩ := List.mem_map.mp hs
    subst hceq
    cases hb : containsC (cellToStr c) '(' with
    | false => rfl
    | true => exact absurd rfl (hchars c hc '(' (containsC_iff.mp hb)).2.2.1
  have h4 : (out.map cellToStr).map stripStr = out.map cellToStr := map_id_of (fun s hs => by
    obtain ⟨c, hc, hceq⟩ := List.mem_map.mp hs
    subst hceq
    unfold stripStr
    rw [trimWs_of_no_ws (fun ch hch => (hchars c hc ch hch).2.2.2.2), stringMk_data])
  unfold stageStrs
  rw [h1, h2, h3, h4, optMap_map]
  rw [optMap_all _ _ (fun c hc => parseFloat_cellToStr (hrange c hc))]

/-- Witness for C7: converting a formatted column then converting its
numeric output again. -/
theorem amount_normalization_idempotent_witness :
    convertAmountToNumeric [Cell.str "$1,234.56"] = .ok [Cell.num (123456 / 100)] ∧
    convertAmountToNumeric [Cell.num (123456 / 100)] = .ok [Cell.num (123456 / 100)] :=
  ⟨by with_unfolding_all rfl,
    amount_normalization_idempotent [Cell.str "$1,234.56"] [Cell.num (123456 / 100)]
      (by with_unfolding_all rfl)⟩

/-! ## Claim C8: invariants of the finalized tables -/

/-- A cell of pandas numeric (float) dtype: a finite number, `NaN`, or
a signed infinity. -/
def numericCell : Cell → Bool
  | .num _ => true
  | .nan => true
  | .inf _ => true
  | _ => false

/-- The finalized-table invariant: exactly the declared columns in
order (header and every row), the named columns numeric, and adjacent
rows in ascending `Date` order. -/
def tableInv (cs nks : List String) (t : Table) : Prop :=
  t.cols = cs ∧ (∀ r ∈ t.rows, r.map Prod.fst = cs) ∧
  (∀ r ∈ t.rows, ∀ k ∈ nks, numericCell (rowGetD r k) = true) ∧
  List.Chain' dateLE t.rows

theorem dateLE_total : ∀ a b : Row, dateLE a b ∨ dateLE b a := by
  intro a b
  unfold dateLE dateLEb
  rcases Nat.lt_trichotomy (dateFlag a) (dateFlag b) with h | h | h
  · left; simp [h]
  · rcases Nat.le_total (dateVal a) (dateVal b) with h2 | h2
    · left; simp [h, h2]
    · right; simp [h, h2]
  · right; simp [h]

theorem dateLE_trans : ∀ a b c : Row, dateLE a b → dateLE b c → dateLE a c := by
  intro a b c hab hbc
  unfold dateLE dateLEb at *
  simp only [Bool.or_eq_true, Bool.and_eq_true, decide_eq_true_eq, beq_iff_eq] at *
  omega

instance : IsTotal Row dateLE := ⟨dateLE_total⟩

instance : IsTrans Row dateLE := ⟨dateLE_trans⟩

theorem sortByDate_cols (t : Table) : (sortByDate t).cols = t.cols := rfl

theorem sortByDate_mem (t : Table) (r : Row) : r ∈ (sortByDate t).rows ↔ r ∈ t.rows :=
  (List.perm_insertionSort dateLE t.rows).mem_iff

theorem sortByDate_chain (t : Table) : List.Chain' dateLE (sortByDate t).rows :=
  (List.sorted_insertionSort dateLE t.rows).chain'

theorem selectCols_ok (cs : List String) (t t' : Table) (h : selectCols cs t = .ok t') :
    t'.cols = cs ∧ ∀ r ∈ t'.rows, r.map Prod.fst = cs := by
  unfold selectCols at h
  split at h
  · cases h
    refine ⟨rfl, ?_⟩
    intro r hr
    obtain ⟨r0, _, hrfl⟩ := List.mem_map.mp hr
    subst hrfl
    simp only [List.map_map]
    exact List.map_id cs
  · cases h

theorem bind_ok_elim (X : Except Err α) (f : α → Except Err β) (b : β)
    (h : (X >>= f) = .ok b) : ∃ a, X = .ok a ∧ f a = .ok b := by
  cases hX : X with
  | error e => rw [hX] at h; cases h
  | ok a =>
    rw [hX] at h
    exact ⟨a, rfl, h⟩

theorem toDatetimeCol_cols (k : String) (t td : Table) (h : toDatetimeCol k t = .ok td) :
    td.cols = t.cols := by
  unfold toDatetimeCol at h
  cases hm : exMap (fun r =>
      match dateifyCell (rowGetD r k) with
      | .error e => .error e
      | .ok c => .ok (rowSet r k c)) t.rows with
  | error e => rw [hm] at h; cases h
  | ok rs => rw [hm] at h; cases h; rfl

theorem toDatetimeCol_mem (k : String) (t td : Table) (h : toDatetimeCol k t = .ok td) :
    ∀ r' ∈ td.rows, ∃ r ∈ t.rows, ∃ c, r' = rowSet r k c := by
  unfold toDatetimeCol at h
  cases hm : exMap (fun r =>
      match dateifyCell (rowGetD r k) with
      | .error e => .error e
      | .ok c => .ok (rowSet r k c)) t.rows with
  | error e => rw [hm] at h; cases h
  | ok rs =>
    rw [hm] at h
    cases h
    intro r' hr'
    obtain ⟨r, hr, hf⟩ := exMap_mem _ _ _ hm r' hr'
    cases hd : dateifyCell (rowGetD r k) with
    | error e => rw [hd] at hf; cases hf
    | ok c =>
      rw [hd] at hf
      cases hf
      exact ⟨r, hr, c, rfl⟩

theorem toDatetimeCol_keys (k : String) (cs : List String) (hk : k ∈ cs) (t td : Table)
    (h : toDatetimeCol k t = .ok td) (hkeys : ∀ r ∈ t.rows, r.map Prod.fst = cs) :
    ∀ r' ∈ td.rows, r'.map Prod.fst = cs := by
  intro r' hr'
  obtain ⟨r, hr, c, hrfl⟩ := toDatetimeCol_mem k t td h r' hr'
  subst hrfl
  rw [rowSet_keys_of_mem r k c (by rw [hkeys r hr]; exact hk)]
  exact hkeys r hr

theorem dateFlag_rowSet (r : Row) (k : String) (v : Cell) (h : k ≠ "Date") :
    dateFlag (rowSet r k v) = dateFlag r := by
  unfold dateFlag
  rw [rowGetD_set_ne _ _ _ _ (fun he => h he.symm)]

theorem dateVal_rowSet (r : Row) (k : String) (v : Cell) (h : k ≠ "Date") :
    dateVal (rowSet r k v) = dateVal r := by
  unfold dateVal
  rw [rowGetD_set_ne _ _ _ _ (fun he => h he.symm)]

theorem dateLE_rowSet (a b : Row) (k : String) (v w : Cell) (h : k ≠ "Date")
    (hab : dateLE a b) : dateLE (rowSet a k v) (rowSet b k w) := by
  unfold dateLE dateLEb at *
  rw [dateFlag_rowSet _ _ _ h, dateFlag_rowSet _ _ _ h,
    dateVal_rowSet _ _ _ h, dateVal_rowSet _ _ _ h]
  exact hab

theorem mem_zipWith_rowSet (k : String) :
    ∀ (rows : List Row) (vals : List Cell) (r' : Row),
      r' ∈ List.zipWith (fun r v => rowSet r k v) rows vals →
      ∃ r ∈ rows, ∃ v ∈ vals, r' = rowSet r k v := by
  intro rows
  induction rows with
  | nil => intro vals r' h; simp at h
  | cons a t ih =>
    intro vals r' h
    cases vals with
    | nil => simp at h
    | cons v vs =>
      simp only [List.zipWith, List.mem_cons] at h
      rcases h with h | h
      · exact ⟨a, by simp, v, by simp, h⟩
      · obtain ⟨r, hr, w, hw, hrfl⟩ := ih vs r' h
        exact ⟨r, by simp [hr], w, by simp [hw], hrfl⟩

theorem chain_zipWith_rowSet (k : String) (hk : k ≠ "Date") :
    ∀ (rows : List Row) (vals : List Cell), List.Chain' dateLE rows →
      List.Chain' dateLE (List.zipWith (fun r v => rowSet r k v) rows vals) := by
  intro rows
  induction rows with
  | nil => intro vals _; simp
  | cons a t ih =>
    intro vals h
    cases vals with
    | nil => simp
    | cons v vs =>
      cases t with
      | nil => simp
      | cons b t2 =>
        cases vs with
        | nil => simp
        | cons w ws =>
          simp only [List.zipWith]
          rw [List.chain'_cons]
          rw [List.chain'_cons] at h
          exact ⟨dateLE_rowSet a b k v w hk h.1, ih (w :: ws) h.2⟩

theorem numericCell_of_range {c : Cell} (h : ParseRange c) : numericCell c = true := by
  rcases h with h | ⟨b, h⟩ | ⟨q, h, _⟩ <;> subst h <;> rfl

theorem convertAmount_range (col out : List Cell) (h : convertAmountToNumeric col = .ok out) :
    ∀ c ∈ out, ParseRange c := by
  rw [convertAmount_eq_stage] at h
  cases hm : optMap parseFloat (stageStrs col) with
  | none => rw [hm] at h; cases h
  | some vals =>
    rw [hm] at h
    have hout : vals = out := by cases h; rfl
    subst hout
    intro c hc
    obtain ⟨s, _, hs⟩ := optMap_mem parseFloat _ _ hm c hc
    exact parseFloat_range hs

/-- The invariant established by the `populate_*` builders, before the
numeric cleanup: declared header, declared row keys, ascending dates. -/
abbrev preInv (cs : List String) (t : Table) : Prop :=
  t.cols = cs ∧ (∀ r ∈ t.rows, r.map Prod.fst = cs) ∧ List.Chain' dateLE t.rows

theorem bindOk (a : α) (f : α → Except Err β) : (Except.ok a >>= f) = f a := rfl

theorem pureBind (a : α) (f : α → Except Err β) : ((pure a : Except Err α) >>= f) = f a := rfl

theorem keys_append (cs : List String) (l1 l2 : List Row)
    (h1 : ∀ r ∈ l1, r.map Prod.fst = cs) (h2 : ∀ r ∈ l2, r.map Prod.fst = cs) :
    ∀ r ∈ l1 ++ l2, r.map Prod.fst = cs := by
  intro r hr
  rcases List.mem_append.mp hr with hr | hr
  · exact h1 r hr
  · exact h2 r hr

theorem finishSort_inv (cs : List String) (hD : "Date" ∈ cs) (M td : Table)
    (hcols : M.cols = cs) (hkeys : ∀ r ∈ M.rows, r.map Prod.fst = cs)
    (heq : toDatetimeCol "Date" M = .ok td) : preInv cs (sortByDate td) := by
  refine ⟨?_, ?_, sortByDate_chain td⟩
  · rw [sortByDate_cols, toDatetimeCol_cols _ _ _ heq, hcols]
  · intro r hr
    exact toDatetimeCol_keys "Date" cs hD M td heq hkeys r ((sortByDate_mem td r).mp hr)

theorem populateDividend_pre (ind eac : Option Table) (d : Table)
    (h : populateDividendTable ind eac = .ok d) : preInv dividendCols d := by
  unfold populateDividendTable at h
  obtain ⟨base, hbase, h⟩ := bind_ok_elim _ _ _ h
  obtain ⟨merged, hmerged, h⟩ := bind_ok_elim _ _ _ h
  obtain ⟨td, htd, h⟩ := bind_ok_elim _ _ _ h
  cases h
  have hB := selectCols_ok _ _ _ hbase
  have hM : merged.cols = dividendCols ∧ ∀ r ∈ merged.rows, r.map Prod.fst = dividendCols := by
    cases eac with
    | none => cases hmerged; exact hB
    | some t =>
      obtain ⟨e, he, hp⟩ := bind_ok_elim _ _ _ hmerged
      have hE := selectCols_ok _ _ _ he
      cases hp
      split
      · exact hB
      · exact ⟨hB.1, keys_append _ _ _ hB.2 hE.2⟩
  exact finishSort_inv dividendCols (by decide) _ td hM.1 hM.2 htd

theorem populateInterest_pre (ind : Option Table) (i : Table)
    (h : populateInterestTable ind = .ok i) : preInv interestCols i := by
  unfold populateInterestTable at h
  obtain ⟨base, hbase, h⟩ := bind_ok_elim _ _ _ h
  obtain ⟨td, htd, h⟩ := bind_ok_elim _ _ _ h
  cases h
  have hB := selectCols_ok _ _ _ hbase
  exact finishSort_inv interestCols (by decide) _ td hB.1 hB.2 htd

theorem populateTax_pre (ind eac : Option Table) (tx : Table)
    (h : populateTaxDeductedTable ind eac = .ok tx) : preInv taxCols tx := by
  unfold populateTaxDeductedTable at h
  obtain ⟨t0, ht0, h⟩ := bind_ok_elim _ _ _ h
  obtain ⟨t1, ht1, h⟩ := bind_ok_elim _ _ _ h
  have h0 : ∀ a, t0 = some a → a.cols = taxCols ∧ ∀ r ∈ a.rows, r.map Prod.fst = taxCols := by
    cases ind with
    | none =>
      cases ht0
      intro a ha
      cases ha
    | some t =>
      obtain ⟨a0, ha0, hp⟩ := bind_ok_elim _ _ _ ht0
      cases hp
      intro a ha
      cases ha
      exact selectCols_ok _ _ _ ha0
  have h1 : ∀ a, t1 = some a → a.cols = taxCols ∧ ∀ r ∈ a.rows, r.map Prod.fst = taxCols := by
    cases eac with
    | none =>
      cases ht1
      exact h0
    | some t =>
      obtain ⟨e, he, hp⟩ := bind_ok_elim _ _ _ ht1
      have hE := selectCols_ok _ _ _ he
      cases hp
      intro a ha
      split at ha
      · exact h0 a ha
      · cases ha
        cases t0 with
        | none => exact hE
        | some b =>
          obtain ⟨hb1, hb2⟩ := h0 b rfl
          exact ⟨hb1, keys_append _ _ _ hb2 hE.2⟩
  have htt : (t1.getD ⟨taxCols, []⟩).cols = taxCols ∧
      ∀ r ∈ (t1.getD ⟨taxCols, []⟩).rows, r.map Prod.fst = taxCols := by
    cases t1 with
    | none => exact ⟨rfl, by intro r hr; simp at hr⟩
    | some a => exact h1 a rfl
  split at h
  · rename_i hemp
    cases h
    exact ⟨htt.1, htt.2, by rw [List.isEmpty_iff.mp hemp]; simp⟩
  · obtain ⟨td, htd, h⟩ := bind_ok_elim _ _ _ h
    cases h
    exact finishSort_inv taxCols (by decide) _ td htt.1 htt.2 htd

theorem populateEacSale_none_inv (eac : Option Table) (s0 : Option Table)
    (h : populateEacSaleTable eac none = .ok s0) :
    ∀ t', s0 = some t' → t'.cols = saleCols ∧ ∀ r ∈ t'.rows, r.map Prod.fst = saleCols := by
  unfold populateEacSaleTable at h
  cases eac with
  | none =>
    cases h
    intro t' ht'
    cases ht'
  | some te =>
    obtain ⟨e, he, h⟩ := bind_ok_elim _ _ _ h
    have hE := selectCols_ok _ _ _ he
    split at h
    · cases h
      intro t' ht'
      cases ht'
    · obtain ⟨e', he', h⟩ := bind_ok_elim _ _ _ h
      dsimp only at h
      cases h
      intro t' ht'
      cases ht'
      refine ⟨?_, ?_⟩
      · rw [toDatetimeCol_cols _ _ _ he', hE.1]
      · exact toDatetimeCol_keys "Date" saleCols (by decide) _ _ he' hE.2

theorem populateSale_pre (eac indSales : Option Table) (sl : Table)
    (h : populateSaleTable eac indSales = .ok sl) : preInv saleCols sl := by
  unfold populateSaleTable at h
  obtain ⟨s0, hs0, h⟩ := bind_ok_elim _ _ _ h
  obtain ⟨s1, hs1, h⟩ := bind_ok_elim _ _ _ h
  have h0 := populateEacSale_none_inv eac s0 hs0
  have h1 : ∀ a, s1 = some a → a.cols = saleCols ∧ ∀ r ∈ a.rows, r.map Prod.fst = saleCols := by
    cases indSales with
    | none =>
      cases hs1
      exact h0
    | some t =>
      obtain ⟨i, hi, hp⟩ := bind_ok_elim _ _ _ hs1
      have hI : i.cols = saleCols ∧ ∀ r ∈ i.rows, r.map Prod.fst = saleCols := by
        unfold populateIndividualSaleTable at hi
        split at hi
        · cases hi
          refine ⟨rfl, ?_⟩
          intro r hr
          obtain ⟨r0, _, hrfl⟩ := List.mem_map.mp hr
          subst hrfl
          rfl
        · cases hi
      cases hp
      intro a ha
      split at ha
      · exact h0 a ha
      · cases ha
        cases s0 with
        | none => exact hI
        | some b =>
          obtain ⟨hb1, hb2⟩ := h0 b rfl
          exact ⟨hb1, keys_append _ _ _ hb2 hI.2⟩
  have htt : (s1.getD ⟨saleCols, []⟩).cols = saleCols ∧
      ∀ r ∈ (s1.getD ⟨saleCols, []⟩).rows, r.map Prod.fst = saleCols := by
    cases s1 with
    | none => exact ⟨rfl, by intro r hr; simp at hr⟩
    | some a => exact h1 a rfl
  split at h
  · rename_i hemp
    cases h
    exact ⟨htt.1, htt.2, by rw [List.isEmpty_iff.mp hemp]; simp⟩
  · obtain ⟨td, htd, h⟩ := bind_ok_elim _ _ _ h
    cases h
    exact finishSort_inv saleCols (by decide) _ td htt.1 htt.2 htd

theorem cleanupTable_inv (k : String) (hk : k ≠ "Date") (cs : List String) (hmem : k ∈ cs)
    (t t' : Table) (h : cleanupTable k t = .ok t')
    (hcols : t.cols = cs) (hkeys : ∀ r ∈ t.rows, r.map Prod.fst = cs)
    (hch : List.Chain' dateLE t.rows) :
    t'.cols = cs ∧ (∀ r ∈ t'.rows, r.map Prod.fst = cs) ∧ List.Chain' dateLE t'.rows ∧
      (∀ r ∈ t'.rows, numericCell (rowGetD r k) = true) ∧
      (∀ k', k' ≠ k → (∀ r ∈ t.rows, numericCell (rowGetD r k') = true) →
        ∀ r ∈ t'.rows, numericCell (rowGetD r k') = true) := by
  unfold cleanupTable at h
  split at h
  · rename_i hemp
    cases h
    have hrows : t.rows = [] := List.isEmpty_iff.mp hemp
    refine ⟨hcols, hkeys, hch, ?_, ?_⟩
    · intro r hr; rw [hrows] at hr; simp at hr
    · intro k' _ _ r hr; rw [hrows] at hr; simp at hr
  · unfold convertTableColumn at h
    cases hc : convertDfColumn k t.rows with
    | error e => rw [hc] at h; cases h
    | ok rs =>
      rw [hc] at h
      cases h
      unfold convertDfColumn at hc
      cases hca : convertAmountToNumeric (t.rows.map (fun r => rowGetD r k)) with
      | error e => rw [hca] at hc; cases hc
      | ok vals =>
        rw [hca] at hc
        cases hc
        have hval := convertAmount_range _ _ hca
        have hmemz := mem_zipWith_rowSet k t.rows vals
        refine ⟨hcols, ?_, ?_, ?_, ?_⟩
        · intro r' hr'
          obtain ⟨r, hr, v, _, hrfl⟩ := hmemz r' hr'
          subst hrfl
          rw [rowSet_keys_of_mem r k v (by rw [hkeys r hr]; exact hmem)]
          exact hkeys r hr
        · exact chain_zipWith_rowSet k hk t.rows vals hch
        · intro r' hr'
          obtain ⟨r, hr, v, hv, hrfl⟩ := hmemz r' hr'
          subst hrfl
          rw [rowGetD_set_self]
          exact numericCell_of_range (hval v hv)
        · intro k' hk' hnum r' hr'
          obtain ⟨r, hr, v, hv, hrfl⟩ := hmemz r' hr'
          subst hrfl
          rw [rowGetD_set_ne _ _ _ _ hk']
          exact hnum r hr

theorem cleanupAll_inv (d0 i0 tx0 sl0 d i tx sl : Table)
    (h : cleanupAllTables d0 i0 tx0 sl0 = .ok (d, i, tx, sl))
    (hd : preInv dividendCols d0) (hi : preInv interestCols i0)
    (htx : preInv taxCols tx0) (hs : preInv saleCols sl0) :
    tableInv dividendCols ["Amount"] d ∧ tableInv interestCols ["Amount"] i ∧
      tableInv taxCols ["Amount"] tx ∧ tableInv saleCols ["Amount", "Cost Basis"] sl := by
  unfold cleanupAllTables at h
  cases h1 : cleanupTable "Amount" d0 with
  | error e => rw [h1] at h; cases h
  | ok d2 =>
    simp only [h1, bindOk] at h
    cases h2 : cleanupTable "Amount" i0 with
    | error e => rw [h2] at h; cases h
    | ok i2 =>
      simp only [h2, bindOk] at h
      cases h3 : cleanupTable "Amount" tx0 with
      | error e => rw [h3] at h; cases h
      | ok tx2 =>
        simp only [h3, bindOk] at h
        cases h4 : cleanupTable "Amount" sl0 with
        | error e => rw [h4] at h; cases h
        | ok sl2 =>
          simp only [h4, bindOk] at h
          cases h5 : cleanupTable "Cost Basis" sl2 with
          | error e => rw [h5] at h; cases h
          | ok sl3 =>
            simp only [h5, bindOk] at h
            cases h
            obtain ⟨hd1, hd2, hd3, hd4, _⟩ :=
              cleanupTable_inv "Amount" (by decide) dividendCols (by decide) d0 _ h1
                hd.1 hd.2.1 hd.2.2
            obtain ⟨hi1, hi2, hi3, hi4, _⟩ :=
              cleanupTable_inv "Amount" (by decide) interestCols (by decide) i0 _ h2
                hi.1 hi.2.1 hi.2.2
            obtain ⟨ht1, ht2, ht3, ht4, _⟩ :=
              cleanupTable_inv "Amount" (by decide) taxCols (by decide) tx0 _ h3
                htx.1 htx.2.1 htx.2.2
            obtain ⟨hs1, hs2, hs3, hs4, _⟩ :=
              cleanupTable_inv "Amount" (by decide) saleCols (by decide) sl0 _ h4
                hs.1 hs.2.1 hs.2.2
            obtain ⟨hq1, hq2, hq3, hq4, hq5⟩ :=
              cleanupTable_inv "Cost Basis" (by decide) saleCols (by decide) sl2 _ h5
                hs1 hs2 hs3
            have hq6 := hq5 "Amount" (by decide) hs4
            refine ⟨⟨hd1, hd2, ?_, hd3⟩, ⟨hi1, hi2, ?_, hi3⟩, ⟨ht1, ht2, ?_, ht3⟩,
              ⟨hq1, hq2, ?_, hq3⟩⟩
            · intro r hr k hkm
              rw [List.mem_singleton.mp hkm]
              exact hd4 r hr
            · intro r hr k hkm
              rw [List.mem_singleton.mp hkm]
              exact hi4 r hr
            · intro r hr k hkm
              rw [List.mem_singleton.mp hkm]
              exact ht4 r hr
            · intro r hr k hkm
              rcases List.mem_cons.mp hkm with hkm | hkm
              · rw [hkm]
                exact hq6 r hr
              · rw [List.mem_singleton.mp hkm]
                exact hq4 r hr

/-- C8: on every successful run, each of the four finalized category
tables contains exactly its declared columns in the declared order (in
the header and in every row), its `Amount` column — and, for the Sale
table, also `Cost Basis` — is numeric, and adjacent rows are in
ascending `Date` order. -/
theorem finalized_table_invariants (cfg : SplitCfg) (src : Sources) (d i tx sl : Table)
    (h : runPipeline cfg src = .ok (d, i, tx, sl)) :
    tableInv dividendCols ["Amount"] d ∧ tableInv interestCols ["Amount"] i ∧
      tableInv taxCols ["Amount"] tx ∧ tableInv saleCols ["Amount", "Cost Basis"] sl := by
  unfold runPipeline at h
  cases h1 : optInit (initIndividual cfg) src.individual with
  | error e => rw [h1] at h; cases h
  | ok ind =>
    simp only [h1, bindOk] at h
    cases h2 : optInit (initIndividualSales cfg) src.individualSales with
    | error e => rw [h2] at h; cases h
    | ok sales =>
      simp only [h2, bindOk] at h
      cases h3 : optInit (initEac cfg) src.eac with
      | error e => rw [h3] at h; cases h
      | ok eac =>
        simp only [h3, bindOk] at h
        cases h4 : populateDividendTable ind eac with
        | error e => rw [h4] at h; cases h
        | ok d0 =>
          simp only [h4, bindOk] at h
          cases h5 : populateInterestTable ind with
          | error e => rw [h5] at h; cases h
          | ok i0 =>
            simp only [h5, bindOk] at h
            cases h6 : populateTaxDeductedTable ind eac with
            | error e => rw [h6] at h; cases h
            | ok tx0 =>
              simp only [h6, bindOk] at h
              cases h7 : populateSaleTable eac sales with
              | error e => rw [h7] at h; cases h
              | ok sl0 =>
                simp only [h7, bindOk] at h
                exact cleanupAll_inv d0 i0 tx0 sl0 d i tx sl h
                  (populateDividend_pre _ _ _ h4) (populateInterest_pre _ _ h5)
                  (populateTax_pre _ _ _ h6) (populateSale_pre _ _ _ h7)

/-! ## Claim C9: category completeness under source absence -/

/-- The raw individual-account source header (as `pd.read_csv` reports
it). -/
def indSrcCols : List String := ["Date", "Action", "Symbol", "Amount", "Description"]

/-- The raw realized-gains source header (as `pd.read_csv` with
`skiprows=1` reports it). -/
def salesSrcCols : List String :=
  ["Closed Date", "Symbol", "Quantity", "Proceeds", "Cost Basis (CB)", "Opened Date"]

/-- C9 counterexample: a present-but-empty plan-account (EAC) source
aborts the run — with no lot rows, `normalize_eac_df` never creates the
`Cost Basis` column, so the sale-schema selection of
`populate_eac_sale_table` fails with `KeyError` instead of degrading to
an empty table; "an absent or empty source … is never an error" is
false. -/
theorem empty_eac_source_key_error :
    runPipeline ⟨mkDate 2024 6 7, 10⟩ ⟨none, none, some ⟨eacSrcCols, []⟩⟩ =
      .error .keyError := by
  with_unfolding_all rfl

/-- C9 amended: absent sources are harmless — each absent source
contributes nothing, and the all-absent run yields the four empty
tables with their declared schemas; an empty individual or
realized-gains frame (carrying its loader header) behaves exactly like
an absent one in every builder, and an empty EAC frame contributes
nothing to the Dividend and Tax tables; but for the Sale table a
present EAC frame with no lot rows lacks `Cost Basis` and fails with
`KeyError`, so an empty EAC source is an error rather than an empty
contribution. -/
theorem category_tables_under_absence (cfg : SplitCfg)
    (ind indSales eac : Option Table) :
    runPipeline cfg ⟨none, none, none⟩ =
      .ok (⟨dividendCols, []⟩, ⟨interestCols, []⟩, ⟨taxCols, []⟩, ⟨saleCols, []⟩) ∧
    populateDividendTable (some ⟨indSrcCols, []⟩) eac = populateDividendTable none eac ∧
    populateInterestTable (some ⟨indSrcCols, []⟩) = populateInterestTable none ∧
    populateTaxDeductedTable (some ⟨indSrcCols, []⟩) eac =
      populateTaxDeductedTable none eac ∧
    populateDividendTable ind (some ⟨eacSrcCols, []⟩) = populateDividendTable ind none ∧
    populateTaxDeductedTable ind (some ⟨eacSrcCols, []⟩) =
      populateTaxDeductedTable ind none ∧
    populateSaleTable eac (some ⟨salesSrcCols, []⟩) = populateSaleTable eac none ∧
    populateSaleTable (some ⟨eacSrcCols, []⟩) indSales = .error .keyError := by
  refine ⟨by with_unfolding_all rfl, by with_unfolding_all rfl, by with_unfolding_all rfl,
    ?_, by with_unfolding_all rfl, by with_unfolding_all rfl, by with_unfolding_all rfl,
    by with_unfolding_all rfl⟩
  cases eac with
  | none => with_unfolding_all rfl
  | some te =>
    cases hS : selectCols taxCols
        (filterRows (fun r => cellEqStr (rowGetD r "Action") "Tax Withholding") te) with
    | error er =>
      simp only [populateTaxDeductedTable, hS]
      with_unfolding_all rfl
    | ok e =>
      obtain ⟨hc, -⟩ := selectCols_ok _ _ _ hS
      obtain ⟨ec, er⟩ := e
      have hc' : ec = taxCols := hc
      subst hc'
      cases hEm : er.isEmpty with
      | true =>
        simp only [populateTaxDeductedTable, hS, bindOk, pureBind, hEm]
        with_unfolding_all rfl
      | false =>
        simp only [populateTaxDeductedTable, hS, bindOk, pureBind, hEm]
        with_unfolding_all rfl

/-- Witness for C8: the all-sources-absent run produces the four empty
schema tables, which satisfy the invariant. -/
theorem finalized_table_invariants_witness :
    tableInv dividendCols ["Amount"] ⟨dividendCols, []⟩ ∧
      tableInv interestCols ["Amount"] ⟨interestCols, []⟩ ∧
      tableInv taxCols ["Amount"] ⟨taxCols, []⟩ ∧
      tableInv saleCols ["Amount", "Cost Basis"] ⟨saleCols, []⟩ :=
  finalized_table_invariants ⟨mkDate 2024 6 7, 10⟩ ⟨none, none, none⟩ _ _ _ _
    (by with_unfolding_all rfl)

end Schwab
